import Mathlib

/-!
Verification development for the Thirsty-Lang core pipeline
(parser → validator/normalizer → dual-target compiler).

The definitions below are a shallow embedding of
`src/thirsty_lang/{grammar,ir,parser,validator,compiler}.py`:

* Python's structured (YAML-decoded) values are modelled by `Val`
  (null / bool / int / string / sequence / mapping).  Mapping keys are
  modelled as strings (the only keys this pipeline ever uses).
* Python dicts are modelled as insertion-ordered association lists.
* Exceptions are modelled with `Except`; the distinct `raise` sites of
  the validator become the constructors of `VErr`, and the parser's
  failures become `PFail` (`ParseError` messages verbatim, and
  `pyException` for built-in exceptions such as `TypeError`/`ValueError`
  that the Python code lets escape).
* The unbounded recursion of the DFS cycle check is modelled with
  explicit fuel; running out of fuel is a distinguished outcome
  (`none` / `.fuelExhausted`) that is proved unreachable for every
  input that reaches the check.
-/

/-- Structured values as decoded from YAML (cf. the Python objects
`yaml.safe_load` produces: `None`, `bool`, `int`, `str`, `list`, `dict`).
Mapping keys are modelled as strings. -/
inductive Val where
  | vnull : Val
  | vbool : Bool → Val
  | vint : Int → Val
  | vstr : String → Val
  | vlist : List Val → Val
  | vmap : List (String × Val) → Val
deriving Repr

/-- Python truthiness (`bool(x)`): `None`, `False`, `0`, `""`, `[]`, `{}`
are falsy, everything else truthy. -/
def pyTruthy : Val → Bool
  | .vnull => false
  | .vbool b => b
  | .vint n => n != 0
  | .vstr s => s ≠ ""
  | .vlist xs => !xs.isEmpty
  | .vmap m => !m.isEmpty

mutual

/-- Python `repr(x)` for decoded values (containers rendered with
Python's bracket syntax; strings single-quoted). -/
def pyRepr : Val → String
  | .vnull => "None"
  | .vbool true => "True"
  | .vbool false => "False"
  | .vint n => toString n
  | .vstr s => "'" ++ s ++ "'"
  | .vlist xs => "[" ++ pyReprList xs ++ "]"
  | .vmap m => "\x7b" ++ pyReprMap m ++ "\x7d"

/-- Comma-separated `repr` of list elements. -/
def pyReprList : List Val → String
  | [] => ""
  | [x] => pyRepr x
  | x :: y :: xs => pyRepr x ++ ", " ++ pyReprList (y :: xs)

/-- Comma-separated `repr` of mapping entries. -/
def pyReprMap : List (String × Val) → String
  | [] => ""
  | [(k, v)] => "'" ++ k ++ "': " ++ pyRepr v
  | (k, v) :: e :: m => "'" ++ k ++ "': " ++ pyRepr v ++ ", " ++ pyReprMap (e :: m)

end

/-- Python `str(x)`: identity on strings, `repr` rendering otherwise. -/
def pyStr : Val → String
  | .vstr s => s
  | v => pyRepr v

/-- Python `str.strip()`: remove leading and trailing whitespace
(modelled over the character list with `Char.isWhitespace`). -/
def pyStrip (s : String) : String :=
  ⟨((s.data.dropWhile (fun c => c.isWhitespace)).reverse.dropWhile
      (fun c => c.isWhitespace)).reverse⟩

/-- Accumulate a decimal digit string (`none` on any non-digit). -/
def digitsValGo : Nat → List Char → Option Nat
  | acc, [] => some acc
  | acc, c :: cs =>
    if c.isDigit then digitsValGo (acc * 10 + (c.toNat - 48)) cs else none

/-- Value of a non-empty decimal digit string. -/
def digitsVal (ds : List Char) : Option Nat :=
  if ds.isEmpty then none else digitsValGo 0 ds

/-- Python `int(str)`: strip whitespace, optional sign, then a
non-empty run of decimal digits (Python's extra forms — underscores,
other bases — are not exercised by this pipeline). -/
def pyIntStr (s : String) : Option Int :=
  match (pyStrip s).data with
  | '+' :: ds => (digitsVal ds).map (fun n => (n : Int))
  | '-' :: ds => (digitsVal ds).map (fun n => -(n : Int))
  | ds => (digitsVal ds).map (fun n => (n : Int))

/-- Python `int(x)`: defined on bools and ints, parses stripped
strings, and raises `TypeError`/`ValueError` (here: `none`) on `None`,
lists and mappings. -/
def pyInt : Val → Option Int
  | .vbool b => some (if b then 1 else 0)
  | .vint n => some n
  | .vstr s => pyIntStr s
  | _ => none

/-- `dict.get(k)` on an insertion-ordered association list (keys unique
in any dict the Python code builds). -/
def mGet (m : List (String × Val)) (k : String) : Option Val :=
  (m.find? (fun p => p.1 == k)).map (·.2)

/-- Writing one key into a Python dict: insert-or-update, keeping the
first-insertion position of an existing key. -/
def dinsert (m : List (String × Val)) (k : String) (v : Val) : List (String × Val) :=
  if k ∈ m.map (·.1) then m.map (fun p => if p.1 = k then (p.1, v) else p)
  else m ++ [(k, v)]

/-- Python `dict(x)`: a mapping is taken as-is; an iterable of
two-element `[key, value]` lists (with string keys, the only keys this
pipeline uses) also builds a dict; everything else raises (here: `none`). -/
def pyDict : Val → Option (List (String × Val))
  | .vmap m => some m
  | .vlist xs =>
    (xs.mapM (fun x =>
        match x with
        | Val.vlist [Val.vstr k, v] => some (k, v)
        | _ => none)).map
      (fun ps : List (String × Val) =>
        ps.foldl (fun acc (p : String × Val) => dinsert acc p.1 p.2) [])
  | _ => none

/-- `value is None` collapsing: `d.get(k)` yields `None` both when the
key is absent and when it is bound to null. -/
def pyOpt : Option Val → Option Val
  | some .vnull => none
  | none => none
  | some v => some v

/-! ## Data model (`grammar.py`, `ir.py`) -/

/-- `grammar.TaskNode`: a single agent invocation within a flow. -/
structure TaskNode where
  name : String
  agent : String
  input : List (String × Val)
  resources : List (String × Val)
  labels : List (String × Val)
deriving Repr

/-- `grammar.Edge`: a directed dependency between two TaskNodes. -/
structure Edge where
  source : String
  target : String
  condition : Option Val
deriving Repr

/-- `grammar.Policy`: governance policy attached to a FlowDocument. -/
structure Policy where
  risk_level : String
  requires_approval : Bool
  retention : Option Val
  extra : List (String × Val)
deriving Repr

/-- `grammar.FlowDocument`: raw AST produced by the parser. -/
structure FlowDocument where
  version : Int
  id : String
  tenant : String
  tasks : List TaskNode
  edges : List Edge
  policy : Policy
deriving Repr

/-- `ir.IRTask`: normalized task node after validation. -/
structure IRTask where
  name : String
  agent : String
  input : List (String × Val)
  priority : Int
  timeout_ms : Int
  labels : List (String × Val)
deriving Repr

/-- `ir.IREdge`: normalized dependency edge. -/
structure IREdge where
  source : String
  target : String
  condition : Option Val
deriving Repr

/-- `ir.IRPolicy`: validated governance policy. -/
structure IRPolicy where
  risk_level : String
  requires_approval : Bool
  retention : Option Val
deriving Repr

/-- `ir.IRFlow`: fully normalized, validated flow; `tasks` is the
insertion-ordered name-keyed dict. -/
structure IRFlow where
  id : String
  tenant : String
  tasks : List (String × IRTask)
  edges : List IREdge
  policy : IRPolicy
deriving Repr

/-! ## Parser (`parser.py`) -/

/-- Failure modes of `parse_yaml`: a raised `ParseError` with its
message, or a built-in exception (`TypeError` / `ValueError` /
`AttributeError`) escaping uncaught. -/
inductive PFail where
  | parseError : String → PFail
  | pyException : String → PFail
deriving Repr, DecidableEq

/-- `int(...)` where failure escapes as an uncaught built-in exception. -/
def pyIntE (v : Val) : Except PFail Int :=
  match pyInt v with
  | some n => .ok n
  | none => .error (.pyException "int() of non-integer value")

/-- `dict(x or ...)` as used for task `input`/`resources`/`labels`:
falsy values give the empty dict, otherwise `dict(x)`, whose failure
escapes as an uncaught built-in exception. -/
def pyDictE (v : Val) : Except PFail (List (String × Val)) :=
  if pyTruthy v then
    match pyDict v with
    | some d => .ok d
    | none => .error (.pyException "dict() of non-mapping value")
  else .ok []

/-- `parser._require_list` (lines 85-91): `raw.get(key)` is `None` both
when absent and when bound to null. -/
def requireList (m : List (String × Val)) (key : String) : Except PFail (List Val) :=
  match pyOpt (mGet m key) with
  | none => .error (.parseError ("missing required field: '" ++ key ++ "'"))
  | some (.vlist xs) => .ok xs
  | some _ => .error (.parseError ("'" ++ key ++ "' must be a list"))

/-- Task-entry loop of `parse_yaml` (lines 34-46). -/
def parseTasks : List Val → Except PFail (List TaskNode)
  | [] => .ok []
  | t :: ts =>
    match t with
    | .vmap tm => do
      let inp ← pyDictE ((mGet tm "input").getD (.vmap []))
      let res ← pyDictE ((mGet tm "resources").getD (.vmap []))
      let lab ← pyDictE ((mGet tm "labels").getD (.vmap []))
      let rest ← parseTasks ts
      .ok ({ name := pyStr ((mGet tm "name").getD (.vstr ""))
             agent := pyStr ((mGet tm "agent").getD (.vstr ""))
             input := inp, resources := res, labels := lab } :: rest)
    | _ => .error (.parseError "each task entry must be a mapping")

/-- Edge-entry loop of `parse_yaml` (lines 51-61). -/
def parseEdges : List Val → Except PFail (List Edge)
  | [] => .ok []
  | e :: es =>
    match e with
    | .vmap em => do
      let rest ← parseEdges es
      .ok ({ source := pyStr ((mGet em "from").getD (.vstr ""))
             target := pyStr ((mGet em "to").getD (.vstr ""))
             condition := pyOpt (mGet em "condition") } :: rest)
    | _ => .error (.parseError "each edge entry must be a mapping")

/-- `raw.get("edges") or []` followed by the list check (lines 48-50). -/
def getEdgesList (m : List (String × Val)) : Except PFail (List Val) :=
  match mGet m "edges" with
  | none => .ok []
  | some v =>
    if pyTruthy v then
      match v with
      | .vlist xs => .ok xs
      | _ => .error (.parseError "edges must be a list")
    else .ok []

/-- `raw.get("policy") or {}` (line 63): a truthy non-mapping value
later crashes with `AttributeError` at `raw_policy.get(...)`. -/
def getPolicyMap (m : List (String × Val)) : Except PFail (List (String × Val)) :=
  match mGet m "policy" with
  | none => .ok []
  | some v =>
    if pyTruthy v then
      match v with
      | .vmap pm => .ok pm
      | _ => .error (.pyException "AttributeError: no attribute get")
    else .ok []

/-- `parser.parse_yaml` (lines 9-82).  The external YAML decoding step
(`yaml.safe_load`) is out of scope for this core, so the argument is its
outcome: a syntax-error message or the decoded value. -/
def parse_yaml (src : Except String Val) : Except PFail FlowDocument :=
  match src with
  | .error e => .error (.parseError ("YAML parse error: " ++ e))
  | .ok raw =>
    match raw with
    | .vmap m => do
      let version ← pyIntE ((mGet m "version").getD (.vint 1))
      let flow_id := pyStr ((mGet m "id").getD (.vstr ""))
      let tenant := pyStr ((mGet m "tenant").getD (.vstr ""))
      let raw_tasks ← requireList m "tasks"
      let tasks ← parseTasks raw_tasks
      let raw_edges ← getEdgesList m
      let edges ← parseEdges raw_edges
      let pm ← getPolicyMap m
      .ok { version := version, id := flow_id, tenant := tenant
            tasks := tasks, edges := edges
            policy :=
              { risk_level := pyStr ((mGet pm "risk_level").getD (.vstr "low"))
                requires_approval := pyTruthy ((mGet pm "requires_approval").getD (.vbool false))
                retention := pyOpt (mGet pm "retention")
                extra := pm.filter (fun p =>
                  ¬ (p.1 = "risk_level" ∨ p.1 = "requires_approval" ∨ p.1 = "retention")) } }
    | _ => .error (.parseError "top-level document must be a mapping")

/-! ## Validator (`validator.py`) -/

/-- The distinct `raise ValidationError(...)` sites of
`validate_and_normalize` / `_int_field` / `_assert_dag`, with the
entity each message names.  `fuelExhausted` is the artefact of the fuel
bound on the DFS (proved unreachable below). -/
inductive VErr where
  | emptyId : VErr
  | emptyTenant : VErr
  | noTasks : VErr
  | emptyTaskName : VErr
  | duplicateTask : String → VErr
  | emptyAgent : String → VErr
  | intFieldBad : String → String → VErr
  | timeoutNotPositive : String → VErr
  | unknownSource : String → VErr
  | unknownTarget : String → VErr
  | invalidRisk : String → VErr
  | cycleDetected : String → VErr
  | fuelExhausted : VErr
deriving Repr, DecidableEq

/-- `validator.DEFAULT_PRIORITY`. -/
def DEFAULT_PRIORITY : Int := 0

/-- `validator.DEFAULT_TIMEOUT_MS`. -/
def DEFAULT_TIMEOUT_MS : Int := 10000

/-- `validator.VALID_RISK_LEVELS` (a set; modelled as a list, only
membership is ever used). -/
def VALID_RISK_LEVELS : List String := ["low", "medium", "high", "critical"]

/-- `validator._int_field` (lines 102-111): `resources.get(key, default)`
followed by `int(...)`; a non-coercible value raises naming the task and
the field. -/
def intField (resources : List (String × Val)) (key : String) (dflt : Int)
    (task : String) : Except VErr Int :=
  match mGet resources key with
  | none => .ok dflt
  | some v =>
    match pyInt v with
    | some n => .ok n
    | none => .error (.intFieldBad task key)

/-- The per-task loop of `validate_and_normalize` (lines 44-65),
accumulating `seen_names` and the insertion-ordered `ir_tasks` dict. -/
def buildTasks : List TaskNode → List String → List (String × IRTask) →
    Except VErr (List (String × IRTask))
  | [], _, acc => .ok acc
  | t :: ts, seen, acc =>
    if pyStrip t.name = "" then .error .emptyTaskName
    else if t.name ∈ seen then .error (.duplicateTask t.name)
    else if pyStrip t.agent = "" then .error (.emptyAgent t.name)
    else
      match intField t.resources "priority" DEFAULT_PRIORITY t.name with
      | .error e => .error e
      | .ok priority =>
        match intField t.resources "timeout_ms" DEFAULT_TIMEOUT_MS t.name with
        | .error e => .error e
        | .ok timeout_ms =>
          if timeout_ms ≤ 0 then .error (.timeoutNotPositive t.name)
          else
            buildTasks ts (seen ++ [t.name])
              (acc ++ [(t.name,
                { name := t.name, agent := t.agent, input := t.input
                  priority := priority, timeout_ms := timeout_ms
                  labels := t.labels })])

/-- The per-edge loop of `validate_and_normalize` (lines 67-77):
endpoints must be keys of the `ir_tasks` dict. -/
def buildEdges (ir_tasks : List (String × IRTask)) :
    List Edge → List IREdge → Except VErr (List IREdge)
  | [], acc => .ok acc
  | e :: es, acc =>
    if e.source ∉ ir_tasks.map (·.1) then .error (.unknownSource e.source)
    else if e.target ∉ ir_tasks.map (·.1) then .error (.unknownTarget e.target)
    else buildEdges ir_tasks es
      (acc ++ [{ source := e.source, target := e.target, condition := e.condition }])

/-- Append an element unless it is already present: models successive
`set.add` calls building `graph[e.source]` in `_assert_dag`. -/
def dedupAppend (acc : List String) (x : String) : List String :=
  if x ∈ acc then acc else acc ++ [x]

/-- The adjacency sets of `_assert_dag` (lines 116-118).  CPython
iterates a set of strings in an unspecified (hash-based) order; the
embedding determinizes it to first-insertion order, which is sound for
every property proved here. -/
def graphAdj (edges : List IREdge) (node : String) : List String :=
  ((edges.filter (fun e => e.source == node)).map (·.target)).foldl dedupAppend []

mutual

/-- `_assert_dag.dfs` (lines 123-134).  `visiting` is the recursion
stack, `visited` the memoized finished nodes in reverse finish order;
`.error v` models `raise ValidationError("cycle detected ... at v")`,
`none` models running out of fuel (Python's recursion is unbounded; a
fuel of `|tasks| + 1` is proved sufficient below). -/
def dfsT (adj : String → List String) :
    Nat → List String → List String → String → Option (Except String (List String))
  | 0, _, _, _ => none
  | fuel + 1, visiting, visited, node =>
    if node ∈ visiting then some (.error node)
    else if node ∈ visited then some (.ok visited)
    else
      match dfsListT adj fuel (node :: visiting) visited (adj node) with
      | none => none
      | some (.error v) => some (.error v)
      | some (.ok visited') => some (.ok (node :: visited'))

/-- The `for nxt in graph[node]: dfs(nxt)` loop inside `_assert_dag.dfs`,
threading the `visited` set. -/
def dfsListT (adj : String → List String) :
    Nat → List String → List String → List String → Option (Except String (List String))
  | _, _, visited, [] => some (.ok visited)
  | fuel, visiting, visited, x :: xs =>
    match dfsT adj fuel visiting visited x with
    | none => none
    | some (.error v) => some (.error v)
    | some (.ok visited') => dfsListT adj fuel visiting visited' xs

end

/-- `for name in tasks: dfs(name)` (lines 136-137), over the task dict
in insertion order. -/
def assertDagLoop (adj : String → List String) (fuel : Nat) :
    List String → List String → Option (Except String (List String))
  | visited, [] => some (.ok visited)
  | visited, r :: rs =>
    match dfsT adj fuel [] visited r with
    | none => none
    | some (.error v) => some (.error v)
    | some (.ok visited') => assertDagLoop adj fuel visited' rs

/-- `validator._assert_dag` (lines 114-137). -/
def assert_dag (tasks : List (String × IRTask)) (edges : List IREdge) :
    Option (Except String (List String)) :=
  assertDagLoop (graphAdj edges) (tasks.length + 1) [] (tasks.map (·.1))

/-- `validator.validate_and_normalize` (lines 13-99). -/
def validate_and_normalize (doc : FlowDocument) : Except VErr IRFlow :=
  if pyStrip doc.id = "" then .error .emptyId
  else if pyStrip doc.tenant = "" then .error .emptyTenant
  else if doc.tasks.isEmpty then .error .noTasks
  else
    match buildTasks doc.tasks [] [] with
    | .error e => .error e
    | .ok ir_tasks =>
      match buildEdges ir_tasks doc.edges [] with
      | .error e => .error e
      | .ok ir_edges =>
        if doc.policy.risk_level ∈ VALID_RISK_LEVELS then
          match assert_dag ir_tasks ir_edges with
          | none => .error .fuelExhausted
          | some (.error v) => .error (.cycleDetected v)
          | some (.ok _) =>
            .ok { id := doc.id, tenant := doc.tenant
                  tasks := ir_tasks, edges := ir_edges
                  policy :=
                    { risk_level := doc.policy.risk_level
                      requires_approval := doc.policy.requires_approval
                      retention := doc.policy.retention } }
        else .error (.invalidRisk doc.policy.risk_level)

/-! ## Compiler (`compiler.py`) -/

/-- Lookup in the name-keyed task dict (`flow.tasks[name]`). -/
def alGet (m : List (String × IRTask)) (k : String) : Option IRTask :=
  (m.find? (fun p => p.1 == k)).map (·.2)

/-- The dict literal `\x7b"flow_id": ..., "task_name": ..., "agent": ...,
**t.labels\x7d` of `ir_to_monolith_tasks` (lines 39-44): start from the
three derived entries, then splat the task's own labels. -/
def mergedLabels (flow : IRFlow) (t : IRTask) : List (String × Val) :=
  t.labels.foldl (fun m p => dinsert m p.1 p.2)
    [("flow_id", .vstr flow.id), ("task_name", .vstr t.name), ("agent", .vstr t.agent)]

/-- The `"resource_hints"` sub-dict of a Monolith payload. -/
structure ResourceHints where
  timeout_ms : Int
deriving Repr

/-- The `"meta"` sub-dict of a Monolith payload. -/
structure MonoMeta where
  owner : String
  priority : Int
  labels : List (String × Val)
  resource_hints : ResourceHints
deriving Repr

/-- One Monolith task payload (`ir_to_monolith_tasks`, lines 35-52). -/
structure MonolithPayload where
  meta : MonoMeta
  agent : String
  input : List (String × Val)
  flow_id : String
deriving Repr

/-- The payload dict built for one task (lines 35-52). -/
def monolithPayload (flow : IRFlow) (t : IRTask) : MonolithPayload :=
  { meta :=
      { owner := flow.tenant
        priority := t.priority
        labels := mergedLabels flow t
        resource_hints := { timeout_ms := t.timeout_ms } }
    agent := t.agent
    input := t.input
    flow_id := flow.id }

/-- Code-point comparison of character lists: the order Python uses to
compare strings. -/
def strLeAux : List Char → List Char → Bool
  | [], _ => true
  | _ :: _, [] => false
  | a :: as, b :: bs =>
    if a.toNat < b.toNat then true
    else if b.toNat < a.toNat then false
    else strLeAux as bs

/-- Python's `<=` on strings: lexicographic by code point. -/
def strLe (a b : String) : Bool :=
  strLeAux a.data b.data

/-- Python's `<=` on `(str, int)` pairs, as `sorted(dict.items())`
compares them: by key first, by value on equal keys (dict keys are
unique, so the value case never decides). -/
def pairLe (a b : String × Int) : Bool :=
  if a.1 == b.1 then decide (a.2 ≤ b.2) else strLe a.1 b.1

/-- Ascending lexicographic sort of names (`sorted(...)` on strings;
Python's sort is stable, and the only ties here are identical strings,
so insertion sort is an exact model). -/
def sortStr (l : List String) : List String :=
  List.insertionSort (fun a b => strLe a b = true) l

/-- `sorted(in_degree.items())`: ascending sort of the pairs (keys are
unique, so ties cannot occur and stability is irrelevant). -/
def sortPairs (l : List (String × Int)) : List (String × Int) :=
  List.insertionSort (fun a b => pairLe a b = true) l

/-- Pointwise update of the `in_degree` dict (`in_degree[k] += d`;
a missing key would be a Python `KeyError`, modelled as a no-op and
proved never to occur for validated flows). -/
def alModify (m : List (String × Int)) (k : String) (f : Int → Int) :
    List (String × Int) :=
  m.map (fun p => if p.1 = k then (p.1, f p.2) else p)

/-- Value of a key in the `in_degree` dict. -/
def alGetI (m : List (String × Int)) (k : String) : Option Int :=
  (m.find? (fun p => p.1 == k)).map (·.2)

/-- `adj[node]`: targets of the edges out of `node`, in edge-declaration
order, duplicates kept (`defaultdict(list)` with repeated `append`). -/
def adjOf (edges : List IREdge) (s : String) : List String :=
  (edges.filter (fun e => e.source == s)).map (·.target)

/-- `in_degree` after the edge scan of `_topological_order`
(lines 110-114): every task starts at 0, each edge bumps its target. -/
def initIndeg (flow : IRFlow) : List (String × Int) :=
  flow.edges.foldl (fun m e => alModify m e.target (fun d => d + 1))
    (flow.tasks.map (fun p => (p.1, (0 : Int))))

/-- The seed queue (lines 116-118): zero-in-degree names, sorted. -/
def seedQueue (flow : IRFlow) : List String :=
  ((sortPairs (initIndeg flow)).filter (fun p => p.2 = 0)).map (·.1)

/-- `for nxt in sorted(adj[node]): in_degree[nxt] -= 1; if ... == 0:
queue.append(nxt)` (lines 123-126). -/
def processTargets : List (String × Int) → List String → List String →
    List (String × Int) × List String
  | indeg, queue, [] => (indeg, queue)
  | indeg, queue, t :: ts =>
    let indeg' := alModify indeg t (fun d => d - 1)
    let queue' := if alGetI indeg' t = some 0 then queue ++ [t] else queue
    processTargets indeg' queue' ts

/-- The `while queue` loop of `_topological_order` (lines 120-126),
with fuel (one unit per dequeue; `|tasks|` units are proved sufficient). -/
def kahnLoop (adj : String → List String) :
    Nat → List String → List (String × Int) → List String
  | 0, _, _ => []
  | _ + 1, [], _ => []
  | fuel + 1, node :: rest, indeg =>
    let s := processTargets indeg rest (sortStr (adj node))
    node :: kahnLoop adj fuel s.2 s.1

/-- `compiler._topological_order` (lines 103-128). -/
def _topological_order (flow : IRFlow) : List String :=
  kahnLoop (adjOf flow.edges) flow.tasks.length (seedQueue flow) (initIndeg flow)

/-- `compiler.ir_to_monolith_tasks` (lines 7-53): one payload per task,
in topological order.  (`flow.tasks[name]` cannot miss — every emitted
name is a task key; a miss would be a Python `KeyError`, modelled by
skipping and proved never to occur.) -/
def ir_to_monolith_tasks (flow : IRFlow) : List MonolithPayload :=
  (_topological_order flow).filterMap
    (fun name => (alGet flow.tasks name).map (monolithPayload flow))

/-- One task record of the Waterfall spec (lines 82-88). -/
structure WTask where
  name : String
  agent : String
  priority : Int
  timeout_ms : Int
  labels : List (String × Val)
deriving Repr

/-- The `"policy"` sub-dict of the Waterfall spec (lines 76-80). -/
structure WPolicy where
  risk_level : String
  requires_approval : Bool
  retention : Option Val
deriving Repr

/-- One edge record of the Waterfall spec (lines 93-97); `wfrom`/`wto`
stand for the dict keys `"from"`/`"to"`. -/
structure WEdge where
  wfrom : String
  wto : String
  condition : Option Val
deriving Repr

/-- The Waterfall DAG spec (lines 73-100). -/
structure WSpec where
  id : String
  tenant : String
  policy : WPolicy
  tasks : List WTask
  edges : List WEdge
deriving Repr

/-- `compiler.ir_to_waterfall_spec` (lines 56-100): tasks in topological
order, edges verbatim in declaration order. -/
def ir_to_waterfall_spec (flow : IRFlow) : WSpec :=
  { id := flow.id
    tenant := flow.tenant
    policy :=
      { risk_level := flow.policy.risk_level
        requires_approval := flow.policy.requires_approval
        retention := flow.policy.retention }
    tasks :=
      (_topological_order flow).filterMap
        (fun name => (alGet flow.tasks name).map
          (fun t => { name := t.name, agent := t.agent, priority := t.priority
                      timeout_ms := t.timeout_ms, labels := t.labels }))
    edges := flow.edges.map
      (fun e => { wfrom := e.source, wto := e.target, condition := e.condition }) }

/-! ## Specification-side notions (stated from the spec's words, for
comparison with the embedded code) -/

/-- There is an edge from `u` to `w`. -/
def hasEdge (edges : List IREdge) (u w : String) : Prop :=
  ∃ e ∈ edges, e.source = u ∧ e.target = w

instance (edges : List IREdge) : DecidableRel (hasEdge edges) :=
  fun u w => List.decidableBEx _ edges

/-- Acyclicity of the dependency graph: some rank function strictly
increases along every edge (equivalent to the absence of directed
cycles). -/
def Acyclic (edges : List IREdge) : Prop :=
  ∃ rank : String → Nat, ∀ e ∈ edges, rank e.source < rank e.target

/-- `v` lies on a directed cycle: a chain of edges leaves `v` and
returns to it. -/
def OnCycle (edges : List IREdge) (v : String) : Prop :=
  ∃ l, List.Chain (hasEdge edges) v (l ++ [v])

/-- Number of edges into `v` whose source has not been emitted yet —
the meaning of the mutable `in_degree[v]` during Kahn's algorithm. -/
def countIn (edges : List IREdge) (emitted : List String) (v : String) : Int :=
  ((edges.filter (fun e => e.target == v && !(emitted.contains e.source))).length : Int)

/-- `a` occurs strictly before `b` in `l`. -/
def beforeIn (l : List String) (a b : String) : Prop :=
  a ∈ l ∧ b ∈ l ∧ l.indexOf a < l.indexOf b

/-- Modelled from the spec: the tasks that are ready once `emitted` has
been emitted — not yet emitted, and every incoming edge's source already
emitted (spec §4.3: "ready"). -/
def readyTasks (flow : IRFlow) (emitted : List String) : List String :=
  (flow.tasks.map (·.1)).filter
    (fun v => !(emitted.contains v) &&
      (flow.edges.all (fun e => !(e.target == v) || emitted.contains e.source)))

/-- Modelled from the spec (§4.3, claim C2): repeatedly append the
lexicographically smallest currently-ready task name. -/
def smallestReadyGo (flow : IRFlow) : Nat → List String → List String
  | 0, _ => []
  | fuel + 1, emitted =>
    match sortStr (readyTasks flow emitted) with
    | [] => []
    | v :: _ => v :: smallestReadyGo flow fuel (emitted ++ [v])

/-- Modelled from the spec (§4.3, claim C2): the "smallest ready name
first" order the spec describes. -/
def smallestReadyOrder (flow : IRFlow) : List String :=
  smallestReadyGo flow flow.tasks.length []

/-- The validation rule that fired, for comparing the implementation
with the spec's priority list (the cycle rule is identified without its
node, whose choice is the implementation's). -/
inductive RuleTag where
  | emptyId | emptyTenant | noTasks | emptyTaskName
  | duplicateTask (name : String)
  | emptyAgent (task : String)
  | intFieldBad (task key : String)
  | timeoutNotPositive (task : String)
  | unknownSource (s : String)
  | unknownTarget (t : String)
  | invalidRisk (r : String)
  | cycle
deriving Repr, DecidableEq

/-- Rule fired by a raised `ValidationError` (`fuelExhausted` is mapped
arbitrarily; it is proved never to occur). -/
def tagOf : VErr → RuleTag
  | .emptyId => .emptyId
  | .emptyTenant => .emptyTenant
  | .noTasks => .noTasks
  | .emptyTaskName => .emptyTaskName
  | .duplicateTask n => .duplicateTask n
  | .emptyAgent t => .emptyAgent t
  | .intFieldBad t k => .intFieldBad t k
  | .timeoutNotPositive t => .timeoutNotPositive t
  | .unknownSource s => .unknownSource s
  | .unknownTarget t => .unknownTarget t
  | .invalidRisk r => .invalidRisk r
  | .cycleDetected _ => .cycle
  | .fuelExhausted => .cycle

/-- Rule fired by a validation outcome (`none` = validation succeeded). -/
def errTag : Except VErr IRFlow → Option RuleTag
  | .ok _ => none
  | .error e => some (tagOf e)

/-- Modelled from the spec (§4.2, claim C5): the per-task rules in
priority order — empty name, duplicate name (against earlier tasks),
empty agent, non-coercible priority, non-coercible timeout, non-positive
timeout — scanned in task declaration order. -/
def fvTasks : List TaskNode → List String → Option RuleTag
  | [], _ => none
  | t :: ts, prior =>
    if pyStrip t.name = "" then some .emptyTaskName
    else if t.name ∈ prior then some (.duplicateTask t.name)
    else if pyStrip t.agent = "" then some (.emptyAgent t.name)
    else if ((mGet t.resources "priority").map pyInt) = some none then
      some (.intFieldBad t.name "priority")
    else if ((mGet t.resources "timeout_ms").map pyInt) = some none then
      some (.intFieldBad t.name "timeout_ms")
    else if ((match mGet t.resources "timeout_ms" with
              | none => DEFAULT_TIMEOUT_MS
              | some v => (pyInt v).getD 0) : Int) ≤ 0 then
      some (.timeoutNotPositive t.name)
    else fvTasks ts (prior ++ [t.name])

/-- Modelled from the spec (§4.2, claim C5): the per-edge rules in
priority order — unknown source, then unknown target — scanned in edge
declaration order, against the full set of task names. -/
def fvEdges (names : List String) : List Edge → Option RuleTag
  | [] => none
  | e :: es =>
    if e.source ∉ names then some (.unknownSource e.source)
    else if e.target ∉ names then some (.unknownTarget e.target)
    else fvEdges names es

/-- Modelled from the spec (§4.2): cycle detection over the task names
and the raw source/target pairs — the same depth-first traversal the
spec prescribes, run on the spec-side data. -/
def specCycle (names : List String) (pairs : List (String × String)) : Bool :=
  match assertDagLoop
      (fun node => ((pairs.filter (fun p => p.1 == node)).map (·.2)).foldl dedupAppend [])
      (names.length + 1) [] names with
  | some (.ok _) => false
  | _ => true

/-- Modelled from the spec (§4.2, claim C5): the first violated rule in
the spec's priority order, or `none` when the document is valid. -/
def firstViolation (doc : FlowDocument) : Option RuleTag :=
  if pyStrip doc.id = "" then some .emptyId
  else if pyStrip doc.tenant = "" then some .emptyTenant
  else if doc.tasks.isEmpty then some .noTasks
  else
    match fvTasks doc.tasks [] with
    | some r => some r
    | none =>
      match fvEdges (doc.tasks.map (·.name)) doc.edges with
      | some r => some r
      | none =>
        if doc.policy.risk_level ∉ VALID_RISK_LEVELS then
          some (.invalidRisk doc.policy.risk_level)
        else if specCycle (doc.tasks.map (·.name))
            (doc.edges.map (fun e => (e.source, e.target))) then some .cycle
        else none

/-- `v` is a mapping. -/
def isVMap : Val → Bool
  | .vmap _ => true
  | _ => false

/-- `v` is a sequence. -/
def isVList : Val → Bool
  | .vlist _ => true
  | _ => false

/-- Claim C6, condition (i): the underlying YAML is malformed. -/
def condYamlErr : Except String Val → Bool
  | .error _ => true
  | .ok _ => false

/-- Claim C6, condition (ii): the document root is not a mapping. -/
def condRootNotMap : Except String Val → Bool
  | .ok v => !isVMap v
  | .error _ => false

/-- Claim C6, condition (iii): `tasks` is absent (or null, which
`dict.get` cannot distinguish) or not a sequence. -/
def condTasksBad : Except String Val → Bool
  | .ok (.vmap m) =>
    match pyOpt (mGet m "tasks") with
    | none => true
    | some v => !isVList v
  | _ => false

/-- Claim C6, condition (iv), as the code refines it: `edges` is
present, truthy and not a sequence (a falsy `edges` value is treated as
absent). -/
def condEdgesBad : Except String Val → Bool
  | .ok (.vmap m) =>
    match mGet m "edges" with
    | some v => pyTruthy v && !isVList v
    | none => false
  | _ => false

/-- Claim C6, condition (v): some task or edge entry is not a mapping. -/
def condEntryBad : Except String Val → Bool
  | .ok (.vmap m) =>
    (match pyOpt (mGet m "tasks") with
     | some (.vlist xs) => xs.any (fun x => !isVMap x)
     | _ => false) ||
    (match mGet m "edges" with
     | some (.vlist ys) => ys.any (fun y => !isVMap y)
     | _ => false)
  | _ => false

/-- The disjunction of claim C6's `ParseError` conditions. -/
def parseErrorCond (src : Except String Val) : Bool :=
  condYamlErr src || condRootNotMap src || condTasksBad src ||
    condEdgesBad src || condEntryBad src

/-- Modelled from claim C5's enumerated per-task rules exactly as
written (empty name → duplicate name → empty agent), without the
coercion/timeout rules the code also applies per task. -/
def fvTasksClaimed : List TaskNode → List String → Option RuleTag
  | [], _ => none
  | t :: ts, prior =>
    if pyStrip t.name = "" then some .emptyTaskName
    else if t.name ∈ prior then some (.duplicateTask t.name)
    else if pyStrip t.agent = "" then some (.emptyAgent t.name)
    else fvTasksClaimed ts (prior ++ [t.name])

/-- Modelled from claim C5's priority list exactly as written: (1) empty
id, (2) empty tenant, (3) empty task list, (4) per-task name/dup/agent,
(5) per-edge source/target, (6) risk level, (7) cycle. -/
def claimedFirstViolation (doc : FlowDocument) : Option RuleTag :=
  if pyStrip doc.id = "" then some .emptyId
  else if pyStrip doc.tenant = "" then some .emptyTenant
  else if doc.tasks.isEmpty then some .noTasks
  else
    match fvTasksClaimed doc.tasks [] with
    | some r => some r
    | none =>
      match fvEdges (doc.tasks.map (·.name)) doc.edges with
      | some r => some r
      | none =>
        if doc.policy.risk_level ∉ VALID_RISK_LEVELS then
          some (.invalidRisk doc.policy.risk_level)
        else if specCycle (doc.tasks.map (·.name))
            (doc.edges.map (fun e => (e.source, e.target))) then some .cycle
        else none

/-! ## Concrete instances used by witnesses and counterexamples -/

/-- A plain validated task. -/
def exTask (n : String) : IRTask :=
  { name := n, agent := "agent", input := [], priority := 0
    timeout_ms := 1000, labels := [] }

/-- Three tasks `a`, `b`, `c` with the single edge `a → b`. -/
def exFlow : IRFlow :=
  { id := "f", tenant := "t"
    tasks := [("a", exTask "a"), ("b", exTask "b"), ("c", exTask "c")]
    edges := [{ source := "a", target := "b", condition := none }]
    policy := { risk_level := "low", requires_approval := false, retention := none } }

/-- A task whose own labels override the derived `task_name` label. -/
def exLabelTask : IRTask :=
  { name := "b", agent := "ag", input := [], priority := 0
    timeout_ms := 5, labels := [("task_name", .vstr "zz")] }

/-- A one-task flow whose task carries an overriding label. -/
def exLabelFlow : IRFlow :=
  { id := "f", tenant := "t"
    tasks := [("b", exLabelTask)]
    edges := []
    policy := { risk_level := "low", requires_approval := false, retention := none } }

/-- A plain parsed task node. -/
def exTaskNode (n a : String) : TaskNode :=
  { name := n, agent := a, input := [], resources := [], labels := [] }

/-- A well-formed two-task document with one edge. -/
def exDocValid : FlowDocument :=
  { version := 1, id := "f", tenant := "t"
    tasks := [exTaskNode "a" "x", exTaskNode "b" "x"]
    edges := [{ source := "a", target := "b", condition := none }]
    policy := { risk_level := "low", requires_approval := false, retention := none, extra := [] } }

/-- Two tasks forming the 2-cycle `a → b → a`. -/
def exDocCycle : FlowDocument :=
  { version := 1, id := "f", tenant := "t"
    tasks := [exTaskNode "a" "x", exTaskNode "b" "x"]
    edges := [{ source := "a", target := "b", condition := none },
              { source := "b", target := "a", condition := none }]
    policy := { risk_level := "low", requires_approval := false, retention := none, extra := [] } }

/-- A self-loop `z → z` next to the 2-cycle `a → b → a`: the DFS reaches
the 2-cycle first and names `a`, not the self-loop task `z`. -/
def exDocShadowedSelfLoop : FlowDocument :=
  { version := 1, id := "f", tenant := "t"
    tasks := [exTaskNode "a" "x", exTaskNode "b" "x", exTaskNode "z" "x"]
    edges := [{ source := "a", target := "b", condition := none },
              { source := "b", target := "a", condition := none },
              { source := "z", target := "z", condition := none }]
    policy := { risk_level := "low", requires_approval := false, retention := none, extra := [] } }

/-- Two tasks with only the self-loop `z → z`. -/
def exDocSelfLoop : FlowDocument :=
  { version := 1, id := "f", tenant := "t"
    tasks := [exTaskNode "a" "x", exTaskNode "z" "x"]
    edges := [{ source := "z", target := "z", condition := none }]
    policy := { risk_level := "low", requires_approval := false, retention := none, extra := [] } }

/-- First task has `timeout_ms: 0`, second task has an empty name: the
code reports the timeout, claim C5's list predicts the empty name. -/
def exDocTimeoutName : FlowDocument :=
  { version := 1, id := "f", tenant := "t"
    tasks := [{ name := "a", agent := "x", input := []
                resources := [("timeout_ms", .vint 0)], labels := [] },
              exTaskNode "" "x"]
    edges := []
    policy := { risk_level := "low", requires_approval := false, retention := none, extra := [] } }

/-- Decoded document with a non-int-coercible `version`: Python raises
an uncaught `ValueError`, not a `ParseError`. -/
def exSrcBadVersion : Except String Val :=
  .ok (.vmap [("version", .vstr "abc"), ("tasks", .vlist [])])

/-- Decoded document whose root is a sequence, not a mapping. -/
def exSrcListRoot : Except String Val :=
  .ok (.vlist [])

/-- The IR the validator produces on `exDocValid`. -/
def exFlowValid : IRFlow :=
  { id := "f", tenant := "t"
    tasks := [("a", { name := "a", agent := "x", input := []
                      priority := 0, timeout_ms := 10000, labels := [] }),
              ("b", { name := "b", agent := "x", input := []
                      priority := 0, timeout_ms := 10000, labels := [] })]
    edges := [{ source := "a", target := "b", condition := none }]
    policy := { risk_level := "low", requires_approval := false, retention := none } }

/-! # Theorems -/

/-! ### Association-list lemmas -/

theorem mGet_nil (k : String) : mGet [] k = none := rfl

theorem mGet_cons (p : String × Val) (rest : List (String × Val)) (k : String) :
    mGet (p :: rest) k = if p.1 = k then some p.2 else mGet rest k := by
  by_cases h : p.1 = k <;> simp [mGet, List.find?_cons, h]

theorem mGet_append_single_ne (m : List (String × Val)) (k k' : String)
    (v : Val) (h : k' ≠ k) : mGet (m ++ [(k, v)]) k' = mGet m k' := by
  induction m with
  | nil =>
    have hne : ¬ k = k' := fun hh => h hh.symm
    simp [mGet_cons, mGet_nil, hne]
  | cons p rest ih =>
    rw [List.cons_append, mGet_cons, mGet_cons, ih]

theorem mGet_dinsert_self (m : List (String × Val)) (k : String) (v : Val) :
    mGet (dinsert m k v) k = some v := by
  unfold dinsert
  split
  case isTrue h =>
    induction m with
    | nil => simp at h
    | cons p rest ih =>
      by_cases hp : p.1 = k
      · simp [mGet_cons, hp]
      · simp only [List.map_cons, List.mem_cons] at h
        rcases h with h | h
        · exact absurd h.symm hp
        · simpa [mGet_cons, hp] using ih h
  case isFalse h =>
    induction m with
    | nil => simp [mGet_cons]
    | cons p rest ih =>
      simp only [List.map_cons, List.mem_cons, not_or] at h
      have hp : p.1 ≠ k := fun hh => h.1 hh.symm
      simpa [mGet_cons, hp] using ih h.2

theorem mGet_dinsert_ne (m : List (String × Val)) (k k' : String) (v : Val)
    (h : k' ≠ k) : mGet (dinsert m k v) k' = mGet m k' := by
  unfold dinsert
  split
  case isTrue hk =>
    clear hk
    induction m with
    | nil => rfl
    | cons p rest ih =>
      have hfst : (if p.1 = k then (p.1, v) else p).1 = p.1 := by
        split <;> rfl
      rw [List.map_cons, mGet_cons, mGet_cons, hfst]
      by_cases hq : p.1 = k'
      · have hp : ¬ p.1 = k := fun hh => h (hq.symm.trans hh)
        rw [if_pos hq, if_pos hq, if_neg hp]
      · rw [if_neg hq, if_neg hq, ih]
  case isFalse hk =>
    exact mGet_append_single_ne m k k' v h

theorem mGet_foldl_dinsert_not_mem (l : List (String × Val))
    (m : List (String × Val)) (k : String) (h : k ∉ l.map (·.1)) :
    mGet (l.foldl (fun acc p => dinsert acc p.1 p.2) m) k = mGet m k := by
  induction l generalizing m with
  | nil => rfl
  | cons p rest ih =>
    simp only [List.map_cons, List.mem_cons, not_or] at h
    rw [List.foldl_cons, ih _ h.2, mGet_dinsert_ne _ _ _ _ h.1]

theorem mGet_foldl_dinsert_mem (l : List (String × Val))
    (m : List (String × Val)) (k : String) (v : Val)
    (hnd : (l.map (·.1)).Nodup) (hmem : (k, v) ∈ l) :
    mGet (l.foldl (fun acc p => dinsert acc p.1 p.2) m) k = some v := by
  induction l generalizing m with
  | nil => simp at hmem
  | cons p rest ih =>
    simp only [List.map_cons, List.nodup_cons] at hnd
    rw [List.foldl_cons]
    rcases List.mem_cons.mp hmem with h | h
    · subst h
      rw [mGet_foldl_dinsert_not_mem _ _ _ hnd.1]
      exact mGet_dinsert_self m k v
    · exact ih _ hnd.2 h

/-! ### Claim theorems: determinism and label override -/

/-- C8: the two target projections and the topological orderer are
deterministic — equal `IRFlow` inputs give equal outputs (the embedding
is pure, mirroring that the Python functions read no state outside
their argument and, unlike the validator's set iteration, use no
order-nondeterministic construct). -/
theorem monolith_waterfall_order_deterministic (f₁ f₂ : IRFlow) (h : f₁ = f₂) :
    ir_to_monolith_tasks f₁ = ir_to_monolith_tasks f₂ ∧
    ir_to_waterfall_spec f₁ = ir_to_waterfall_spec f₂ ∧
    _topological_order f₁ = _topological_order f₂ := by
  subst h; exact ⟨rfl, rfl, rfl⟩

/-- Witness for C8 at a concrete flow. -/
theorem monolith_waterfall_order_deterministic_witness :
    ir_to_monolith_tasks exFlow = ir_to_monolith_tasks exFlow ∧
    ir_to_waterfall_spec exFlow = ir_to_waterfall_spec exFlow ∧
    _topological_order exFlow = _topological_order exFlow :=
  monolith_waterfall_order_deterministic exFlow exFlow rfl

/-- C9: in the task-payload projection, a task's own label for
`flow_id`, `task_name` or `agent` overrides the derived label: the
emitted payload's `meta.labels` carries the task's own value. -/
theorem monolith_labels_task_override (flow : IRFlow) (name : String)
    (t : IRTask) (k : String) (v : Val)
    (hget : alGet flow.tasks name = some t)
    (horder : name ∈ _topological_order flow)
    (hnd : (t.labels.map (·.1)).Nodup)
    (hmem : (k, v) ∈ t.labels)
    (hk : k = "flow_id" ∨ k = "task_name" ∨ k = "agent") :
    monolithPayload flow t ∈ ir_to_monolith_tasks flow ∧
    mGet (monolithPayload flow t).meta.labels k = some v := by
  constructor
  · exact List.mem_filterMap.mpr ⟨name, horder, by rw [hget]; rfl⟩
  · show mGet (mergedLabels flow t) k = some v
    exact mGet_foldl_dinsert_mem _ _ _ _ hnd hmem

/-- Witness for C9: the task's `task_name` label value survives into the
payload. -/
theorem monolith_labels_task_override_witness :
    alGet exLabelFlow.tasks "b" = some exLabelTask ∧
    "b" ∈ _topological_order exLabelFlow ∧
    mGet (monolithPayload exLabelFlow exLabelTask).meta.labels "task_name" =
      some (.vstr "zz") :=
  ⟨rfl, by decide,
    (monolith_labels_task_override exLabelFlow "b" exLabelTask "task_name"
      (.vstr "zz") rfl (by decide) (by decide)
      (List.mem_singleton.mpr rfl)
      (Or.inr (Or.inl rfl))).2⟩

/-! ### String-order lemmas -/

theorem strLeAux_refl (l : List Char) : strLeAux l l = true := by
  induction l with
  | nil => rfl
  | cons a as ih => simp [strLeAux, ih]

theorem strLe_refl (s : String) : strLe s s = true := strLeAux_refl s.data

theorem strLeAux_total (l₁ l₂ : List Char) :
    strLeAux l₁ l₂ = false → strLeAux l₂ l₁ = true := by
  induction l₁ generalizing l₂ with
  | nil => intro h; simp [strLeAux] at h
  | cons a as ih =>
    intro h
    cases l₂ with
    | nil => rfl
    | cons b bs =>
      simp only [strLeAux] at h ⊢
      by_cases hab : a.toNat < b.toNat
      · simp [hab] at h
      · by_cases hba : b.toNat < a.toNat
        · simp [hba]
        · have : a.toNat = b.toNat := by omega
          simp [hab, hba, this] at h ⊢
          exact ih bs h

theorem strLe_total (a b : String) : strLe a b = false → strLe b a = true :=
  strLeAux_total a.data b.data

theorem strLeAux_trans (l₁ l₂ l₃ : List Char) :
    strLeAux l₁ l₂ = true → strLeAux l₂ l₃ = true → strLeAux l₁ l₃ = true := by
  induction l₁ generalizing l₂ l₃ with
  | nil => intro _ _; rfl
  | cons a as ih =>
    intro h12 h23
    cases l₂ with
    | nil => simp [strLeAux] at h12
    | cons b bs =>
      cases l₃ with
      | nil => simp [strLeAux] at h23
      | cons c cs =>
        simp only [strLeAux] at h12 h23 ⊢
        by_cases hab : a.toNat < b.toNat <;> by_cases hbc : b.toNat < c.toNat
        · simp [show a.toNat < c.toNat by omega]
        · by_cases hcb : c.toNat < b.toNat
          · simp [hbc, hcb] at h23
          · have : b.toNat = c.toNat := by omega
            simp [show a.toNat < c.toNat by omega]
        · by_cases hba : b.toNat < a.toNat
          · simp [hab, hba] at h12
          · have : a.toNat = b.toNat := by omega
            simp [show a.toNat < c.toNat by omega]
        · by_cases hba : b.toNat < a.toNat
          · simp [hab, hba] at h12
          · by_cases hcb : c.toNat < b.toNat
            · simp [hbc, hcb] at h23
            · have hac : ¬ a.toNat < c.toNat := by omega
              have hca : ¬ c.toNat < a.toNat := by omega
              rw [if_neg hab, if_neg hba] at h12
              rw [if_neg hbc, if_neg hcb] at h23
              rw [if_neg hac, if_neg hca]
              exact ih bs cs h12 h23

theorem strLe_trans (a b c : String) :
    strLe a b = true → strLe b c = true → strLe a c = true :=
  strLeAux_trans a.data b.data c.data

/-! ### Generic insertion-sort ordering lemma -/

theorem pairwise_orderedInsert_of {α : Type} (le : α → α → Prop)
    [DecidableRel le] (R : α → α → Prop)
    (h1 : ∀ a b, le a b → R a b) (h2 : ∀ a b, ¬ le a b → R b a)
    (htr : ∀ a b c, R a b → R b c → R a c) (x : α) :
    ∀ l, l.Pairwise R → (List.orderedInsert le x l).Pairwise R := by
  intro l
  induction l with
  | nil => intro _; simp [List.orderedInsert]
  | cons b t ih =>
    intro hp
    rw [List.orderedInsert]
    rcases List.pairwise_cons.mp hp with ⟨hbt, hpt⟩
    split
    case isTrue hle =>
      refine List.pairwise_cons.mpr ⟨?_, hp⟩
      intro y hy
      rcases List.mem_cons.mp hy with hy | hy
      · exact hy ▸ h1 _ _ hle
      · exact htr _ _ _ (h1 _ _ hle) (hbt y hy)
    case isFalse hle =>
      refine List.pairwise_cons.mpr ⟨?_, ih hpt⟩
      intro y hy
      rcases (List.mem_orderedInsert le).mp hy with hy | hy
      · exact hy ▸ h2 _ _ hle
      · exact hbt y hy

theorem pairwise_insertionSort_of {α : Type} (le : α → α → Prop)
    [DecidableRel le] (R : α → α → Prop)
    (h1 : ∀ a b, le a b → R a b) (h2 : ∀ a b, ¬ le a b → R b a)
    (htr : ∀ a b c, R a b → R b c → R a c) :
    ∀ l : List α, (List.insertionSort le l).Pairwise R := by
  intro l
  induction l with
  | nil => simp [List.insertionSort]
  | cons a t ih =>
    rw [List.insertionSort]
    exact pairwise_orderedInsert_of le R h1 h2 htr a _ ih

/-! ### Small structural lemmas for the orderer -/

theorem alModify_nil (k : String) (f : Int → Int) : alModify [] k f = [] := rfl

theorem alModify_keys (m : List (String × Int)) (k : String) (f : Int → Int) :
    (alModify m k f).map (·.1) = m.map (·.1) := by
  unfold alModify
  rw [List.map_map]
  apply List.map_congr_left
  intro p _
  by_cases hp : p.1 = k <;> simp [hp]

theorem foldl_alModify_keys (es : List IREdge) :
    ∀ m : List (String × Int),
      (es.foldl (fun m e => alModify m e.target (fun d => d + 1)) m).map (·.1) =
        m.map (·.1) := by
  induction es with
  | nil => intro m; rfl
  | cons e rest ih => intro m; rw [List.foldl_cons, ih, alModify_keys]

theorem initIndeg_keys (flow : IRFlow) :
    (initIndeg flow).map (·.1) = flow.tasks.map (·.1) := by
  unfold initIndeg
  rw [foldl_alModify_keys, List.map_map]
  rfl

theorem kahnLoop_nil (adj : String → List String) (fuel : Nat)
    (indeg : List (String × Int)) : kahnLoop adj fuel [] indeg = [] := by
  cases fuel <;> rfl

theorem foldl_alModify_nil (es : List IREdge) :
    es.foldl (fun m e => alModify m e.target (fun d => d + 1)) [] = [] := by
  induction es with
  | nil => rfl
  | cons e rest ih => simpa [alModify] using ih

theorem seedQueue_pairwise (flow : IRFlow) :
    (seedQueue flow).Pairwise (fun a b => strLe a b = true) := by
  unfold seedQueue
  rw [List.pairwise_map]
  refine List.Pairwise.sublist (List.filter_sublist _) ?_
  unfold sortPairs
  apply pairwise_insertionSort_of (fun a b => pairLe a b = true)
    (fun a b => strLe a.1 b.1 = true)
  · intro a b hle
    unfold pairLe at hle
    split at hle
    case isTrue hbeq =>
      have : a.1 = b.1 := by simpa using hbeq
      rw [this]; exact strLe_refl _
    case isFalse hbeq => exact hle
  · intro a b hle
    unfold pairLe at hle
    split at hle
    case isTrue hbeq =>
      have : a.1 = b.1 := by simpa using hbeq
      rw [this]; exact strLe_refl _
    case isFalse hbeq =>
      exact strLe_total _ _ (by simpa using hle)
  · intro a b c hab hbc
    exact strLe_trans _ _ _ hab hbc

/-- C2 is refuted at `exFlow` (tasks `a`, `b`, `c`; edge `a → b`): the
code's FIFO frontier emits `[a, c, b]`, while the claimed
"smallest ready name first" rule would emit `[a, b, c]` — after `a` is
popped, `b` is ready and smaller than the already-queued `c`, but it is
appended at the tail. -/
theorem topological_order_not_globally_smallest_ready :
    _topological_order exFlow = ["a", "c", "b"] ∧
    smallestReadyOrder exFlow = ["a", "b", "c"] ∧
    _topological_order exFlow ≠ smallestReadyOrder exFlow :=
  ⟨by decide, by decide, by decide⟩

/-- C2 (amended): the orderer seeds its FIFO queue with the
zero-in-degree names in ascending lexicographic order, so the first
emitted task is the lexicographically smallest zero-in-degree one and
the seed is pairwise sorted; later-freed successors are merely appended
at the tail, so the whole frontier is not kept "smallest ready first"
(see the counterexample). -/
theorem topological_order_seed_discipline (flow : IRFlow) :
    (_topological_order flow).head? = (seedQueue flow).head? ∧
    (∀ h x, (seedQueue flow).head? = some h → x ∈ seedQueue flow →
      strLe h x = true) := by
  constructor
  · rcases hq : seedQueue flow with _ | ⟨q, rest⟩
    · unfold _topological_order
      rw [hq, kahnLoop_nil]
    · have htasks : flow.tasks ≠ [] := by
        intro h0
        have : seedQueue flow = [] := by
          unfold seedQueue initIndeg
          rw [h0]
          simp [foldl_alModify_nil, sortPairs, List.insertionSort]
        rw [this] at hq
        exact List.noConfusion hq
      obtain ⟨n, hn⟩ : ∃ n, flow.tasks.length = n + 1 := by
        cases h : flow.tasks with
        | nil => exact absurd h htasks
        | cons p l => exact ⟨l.length, rfl⟩
      unfold _topological_order
      rw [hq, hn]
      rfl
  · intro h x hh hx
    have hp := seedQueue_pairwise flow
    rcases hseed : seedQueue flow with _ | ⟨q, rest⟩
    · rw [hseed] at hh; exact absurd hh (by simp)
    · rw [hseed] at hh hx
      have hq : q = h := by simpa using hh
      subst hq
      rw [hseed] at hp
      rcases List.mem_cons.mp hx with hx | hx
      · rw [hx]; exact strLe_refl _
      · exact (List.pairwise_cons.mp hp).1 x hx

/-- Witness for the amended C2 at `exFlow`: the seed is `[a, c]`, the
first emitted task is `a`, and `a` is lexicographically least. -/
theorem topological_order_seed_discipline_witness :
    (seedQueue exFlow).head? = some "a" ∧ "c" ∈ seedQueue exFlow ∧
    strLe "a" "c" = true :=
  ⟨by decide, by decide,
    (topological_order_seed_discipline exFlow).2 "a" "c" (by decide) (by decide)⟩

/-! ### Lemmas on the in-degree association list -/

theorem alGetI_cons (p : String × Int) (rest : List (String × Int)) (k : String) :
    alGetI (p :: rest) k = if p.1 = k then some p.2 else alGetI rest k := by
  by_cases h : p.1 = k <;> simp [alGetI, List.find?_cons, h]

theorem alGetI_alModify (m : List (String × Int)) (k : String) (f : Int → Int)
    (k' : String) :
    alGetI (alModify m k f) k' =
      if k' = k then (alGetI m k).map f else alGetI m k' := by
  induction m with
  | nil => by_cases h : k' = k <;> simp [alModify, alGetI, h]
  | cons p rest ih =>
    have hfst : (if p.1 = k then (p.1, f p.2) else p).1 = p.1 := by
      split <;> rfl
    show alGetI ((if p.1 = k then (p.1, f p.2) else p) :: alModify rest k f) k' = _
    rw [alGetI_cons, hfst]
    by_cases hq : k' = k
    · subst hq
      rw [if_pos rfl, alGetI_cons]
      by_cases hp : p.1 = k'
      · rw [if_pos hp, if_pos hp, if_pos hp]
        rfl
      · rw [if_neg hp, if_neg hp, ih, if_pos rfl]
    · rw [if_neg hq, alGetI_cons]
      by_cases hp : p.1 = k'
      · have hpk : ¬ p.1 = k := fun hh => hq ((hp ▸ hh : (k' : String) = k))
        rw [if_pos hp, if_pos hp, if_neg hpk]
      · rw [if_neg hp, if_neg hp, ih, if_neg hq]

theorem alGetI_mem_of_nodup (m : List (String × Int)) (k : String) (c : Int)
    (hnd : (m.map (·.1)).Nodup) (hmem : (k, c) ∈ m) : alGetI m k = some c := by
  induction m with
  | nil => simp at hmem
  | cons p rest ih =>
    simp only [List.map_cons, List.nodup_cons] at hnd
    rcases List.mem_cons.mp hmem with h | h
    · subst h; rw [alGetI_cons]; simp
    · have hp : p.1 ≠ k := by
        intro hh
        exact hnd.1 (hh ▸ (List.mem_map.mpr ⟨(k, c), h, rfl⟩))
      rw [alGetI_cons, if_neg hp]
      exact ih hnd.2 h

theorem mem_of_alGetI (m : List (String × Int)) (k : String) (c : Int)
    (h : alGetI m k = some c) : (k, c) ∈ m := by
  induction m with
  | nil => simp [alGetI] at h
  | cons p rest ih =>
    rw [alGetI_cons] at h
    split at h
    case isTrue hp =>
      have : p = (k, c) := by
        cases p with
        | mk a b => cases h; cases hp; rfl
      exact this ▸ List.mem_cons_self _ _
    case isFalse hp => exact List.mem_cons_of_mem _ (ih h)

/-! ### Counting lemmas for Kahn's algorithm -/

theorem countIn_cons (e : IREdge) (E : List IREdge) (em : List String) (v : String) :
    countIn (e :: E) em v =
      countIn E em v +
        (if (e.target == v && !(em.contains e.source)) = true then 1 else 0) := by
  unfold countIn
  rw [List.filter_cons]
  split
  case isTrue h => push_cast [List.length_cons]; ring
  case isFalse h => simp

theorem countIn_nonneg (E : List IREdge) (em : List String) (v : String) :
    0 ≤ countIn E em v := by
  unfold countIn
  positivity

theorem adjOf_cons (e : IREdge) (E : List IREdge) (s : String) :
    adjOf (e :: E) s =
      if e.source == s then e.target :: adjOf E s else adjOf E s := by
  unfold adjOf
  rw [List.filter_cons]
  split
  case isTrue h => rfl
  case isFalse h => rfl

theorem countIn_split (E : List IREdge) (em : List String) (node v : String)
    (h : node ∉ em) :
    countIn E em v = countIn E (em ++ [node]) v + ((adjOf E node).count v : Int) := by
  induction E with
  | nil => simp [countIn, adjOf]
  | cons e E' ih =>
    rw [countIn_cons, countIn_cons, adjOf_cons]
    have hBN : ((em ++ [node]).contains e.source) =
        ((em.contains e.source) || (e.source == node)) := by
      by_cases h1 : e.source ∈ em <;> by_cases h2 : e.source = node <;>
        simp [List.contains, List.elem_eq_mem, h1, h2]
    rw [hBN]
    by_cases htgt : e.target = v <;> by_cases hsrc : e.source = node <;>
      by_cases hmem : e.source ∈ em
    · exact absurd (hsrc ▸ hmem) h
    · have hA : (e.target == v) = true := by simpa using htgt
      have hB : (em.contains e.source) = false := by
        simp [List.contains, List.elem_eq_mem, hmem]
      have hS : (e.source == node) = true := by simpa using hsrc
      rw [hA, hB, hS]
      simp [List.count_cons, hA]
      push_cast
      omega
    · have hA : (e.target == v) = true := by simpa using htgt
      have hB : (em.contains e.source) = true := by
        simp [List.contains, List.elem_eq_mem, hmem]
      have hS : (e.source == node) = false := by simpa using hsrc
      rw [hA, hB, hS]
      simp
      push_cast
      omega
    · have hA : (e.target == v) = true := by simpa using htgt
      have hB : (em.contains e.source) = false := by
        simp [List.contains, List.elem_eq_mem, hmem]
      have hS : (e.source == node) = false := by simpa using hsrc
      rw [hA, hB, hS]
      simp
      push_cast
      omega
    all_goals {
      have hA : (e.target == v) = false := by simpa using htgt
      rw [hA]
      by_cases hS : (e.source == node) = true
      · rw [hS]
        simp [List.count_cons, hA]
        push_cast
        omega
      · have hS' : (e.source == node) = false := by
          cases hb : (e.source == node) with
          | false => rfl
          | true => exact absurd hb hS
        rw [hS']
        simp
        push_cast
        omega
    }

theorem processTargets_spec (ts : List String) :
    ∀ (indeg : List (String × Int)) (queue : List String),
      (∀ k, alGetI (processTargets indeg queue ts).1 k =
          (alGetI indeg k).map (fun c => c - (ts.count k : Int))) ∧
      ∃ newly, (processTargets indeg queue ts).2 = queue ++ newly ∧
        newly.Nodup ∧
        (∀ v, v ∈ newly ↔ ∃ c, alGetI indeg v = some c ∧ 1 ≤ c ∧
          c ≤ (ts.count v : Int)) := by
  induction ts with
  | nil =>
    intro indeg queue
    constructor
    · intro k; cases h : alGetI indeg k <;> simp [processTargets, h]
    · refine ⟨[], by simp [processTargets], List.nodup_nil, ?_⟩
      intro v
      constructor
      · intro hv; simp at hv
      · rintro ⟨c, _, h1, h2⟩
        simp at h2
        omega
  | cons t ts ih =>
    intro indeg queue
    have hstep : processTargets indeg queue (t :: ts) =
        processTargets (alModify indeg t (fun d => d - 1))
          (if alGetI (alModify indeg t (fun d => d - 1)) t = some 0
            then queue ++ [t] else queue) ts := rfl
    rw [hstep]
    obtain ⟨ihA, newly₁, ihQ, ihN, ihC⟩ :=
      ih (alModify indeg t (fun d => d - 1))
        (if alGetI (alModify indeg t (fun d => d - 1)) t = some 0
          then queue ++ [t] else queue)
    constructor
    · intro k
      rw [ihA k, alGetI_alModify]
      by_cases hk : k = t
      · subst hk
        rw [if_pos rfl]
        cases hval : alGetI indeg k <;>
          simp [List.count_cons, Option.map_map]
        push_cast
        ring
      · rw [if_neg hk]
        have hne : (t == k) = false :=
          beq_eq_false_iff_ne.mpr (fun hh => hk hh.symm)
        cases hval : alGetI indeg k <;> simp [List.count_cons, hne]
    · by_cases henq : alGetI (alModify indeg t (fun d => d - 1)) t = some 0
      · -- `t` reached in-degree zero here and was appended to the queue
        have halG : alGetI indeg t = some 1 := by
          rw [alGetI_alModify, if_pos rfl] at henq
          cases hval : alGetI indeg t with
          | none => rw [hval] at henq; simp at henq
          | some c =>
            rw [hval] at henq
            simp at henq
            rw [show c = 1 by omega]
        rw [if_pos henq] at ihQ ⊢
        have htn : t ∉ newly₁ := by
          intro hmem
          obtain ⟨c₁, hc₁, h1, _⟩ := (ihC t).mp hmem
          rw [henq] at hc₁
          cases hc₁
          omega
        refine ⟨t :: newly₁, ?_, ?_, ?_⟩
        · rw [ihQ]
          simp
        · exact List.nodup_cons.mpr ⟨htn, ihN⟩
        · intro v
          by_cases hv : v = t
          · subst hv
            simp only [List.mem_cons, true_or, true_iff]
            refine ⟨1, halG, le_refl 1, ?_⟩
            rw [List.count_cons]
            simp
          · rw [List.mem_cons]
            simp only [hv, false_or]
            rw [ihC v, alGetI_alModify, if_neg hv]
            have hne : (t == v) = false :=
              beq_eq_false_iff_ne.mpr (fun hh => hv hh.symm)
            rw [List.count_cons, hne]
            simp
      · rw [if_neg henq] at ihQ ⊢
        refine ⟨newly₁, ihQ, ihN, ?_⟩
        intro v
        rw [ihC v, alGetI_alModify]
        by_cases hv : v = t
        · subst hv
          rw [if_pos rfl]
          rw [alGetI_alModify, if_pos rfl] at henq
          cases hval : alGetI indeg v with
          | none => simp
          | some c =>
            rw [hval] at henq
            simp only [Option.map] at henq ⊢
            have hcne : ¬ (c - 1 = 0) := fun hh => henq (by rw [hh])
            constructor
            · rintro ⟨c₁, hc₁, h1, h2⟩
              cases hc₁
              refine ⟨c, rfl, by omega, ?_⟩
              rw [List.count_cons]
              simp
              push_cast
              omega
            · rintro ⟨c', hc', h1, h2⟩
              cases hc'
              rw [List.count_cons] at h2
              simp at h2
              push_cast at h2
              exact ⟨c - 1, rfl, by omega, by omega⟩
        · rw [if_neg hv]
          have hne : (t == v) = false :=
            beq_eq_false_iff_ne.mpr (fun hh => hv hh.symm)
          rw [List.count_cons, hne]
          simp

/-! ### Ordering and membership helpers for the main loop invariant -/

theorem alGetI_eq_none_of_not_key (m : List (String × Int)) (k : String)
    (h : k ∉ m.map (·.1)) : alGetI m k = none := by
  induction m with
  | nil => rfl
  | cons p rest ih =>
    simp only [List.map_cons, List.mem_cons, not_or] at h
    rw [alGetI_cons, if_neg (fun hh => h.1 hh.symm)]
    exact ih h.2

theorem indexOf_append_right_of_not_mem (l₁ l₂ : List String) (x : String)
    (h : x ∉ l₁) : (l₁ ++ l₂).indexOf x = l₁.length + l₂.indexOf x := by
  induction l₁ with
  | nil => simp
  | cons a rest ih =>
    simp only [List.mem_cons, not_or] at h
    rw [List.cons_append, List.indexOf_cons]
    have : (a == x) = false := beq_eq_false_iff_ne.mpr (fun hh => h.1 hh.symm)
    rw [this]
    simp [ih h.2]
    omega

theorem beforeIn_append_left (l₁ l₂ : List String) (a b : String)
    (h : beforeIn l₁ a b) : beforeIn (l₁ ++ l₂) a b := by
  obtain ⟨ha, hb, hlt⟩ := h
  exact ⟨List.mem_append_left _ ha, List.mem_append_left _ hb, by
    rw [List.indexOf_append_of_mem ha, List.indexOf_append_of_mem hb]; exact hlt⟩

theorem beforeIn_emitted_node (em : List String) (node src : String)
    (hsrc : src ∈ em) (hnode : node ∉ em) : beforeIn (em ++ [node]) src node := by
  refine ⟨List.mem_append_left _ hsrc, List.mem_append_right _ (by simp), ?_⟩
  rw [List.indexOf_append_of_mem hsrc,
    indexOf_append_right_of_not_mem _ _ _ hnode]
  have := List.indexOf_lt_length.mpr hsrc
  omega

theorem countIn_eq_zero_of_sources_emitted (E : List IREdge) (em : List String)
    (v : String) (h : ∀ e ∈ E, e.target = v → e.source ∈ em) :
    countIn E em v = 0 := by
  unfold countIn
  have : List.filter (fun e => e.target == v && !(em.contains e.source)) E = [] := by
    rw [List.filter_eq_nil_iff]
    intro e he
    by_cases htgt : e.target = v
    · have : e.source ∈ em := h e he htgt
      simp [List.contains, List.elem_eq_mem, this]
    · simp [htgt]
  rw [this]
  rfl

theorem sources_emitted_of_countIn_eq_zero (E : List IREdge) (em : List String)
    (v : String) (h : countIn E em v = 0) :
    ∀ e ∈ E, e.target = v → e.source ∈ em := by
  unfold countIn at h
  have hlen : (List.filter (fun e => e.target == v && !(em.contains e.source)) E).length = 0 := by
    omega
  rw [List.length_eq_zero] at hlen
  intro e he htgt
  by_contra hmem
  have : e ∈ List.filter (fun e => e.target == v && !(em.contains e.source)) E := by
    rw [List.mem_filter]
    refine ⟨he, ?_⟩
    simp [htgt, List.contains, List.elem_eq_mem, hmem]
  rw [hlen] at this
  simp at this

theorem exists_edge_of_countIn_ne_zero (E : List IREdge) (em : List String)
    (v : String) (h : countIn E em v ≠ 0) :
    ∃ e ∈ E, e.target = v ∧ e.source ∉ em := by
  unfold countIn at h
  have : List.filter (fun e => e.target == v && !(em.contains e.source)) E ≠ [] := by
    intro hnil
    rw [hnil] at h
    simp at h
  obtain ⟨e, he⟩ := List.exists_mem_of_ne_nil _ this
  rw [List.mem_filter] at he
  refine ⟨e, he.1, ?_⟩
  have := he.2
  simp [List.contains, List.elem_eq_mem] at this
  exact this

theorem exists_min_rank (l : List String) (f : String → Nat) (h : l ≠ []) :
    ∃ a ∈ l, ∀ b ∈ l, f a ≤ f b := by
  induction l with
  | nil => exact absurd rfl h
  | cons x rest ih =>
    by_cases hrest : rest = []
    · refine ⟨x, by simp, ?_⟩
      intro b hb
      rw [hrest] at hb
      simp at hb
      rw [hb]
    · obtain ⟨a, ha, hmin⟩ := ih hrest
      by_cases hc : f x ≤ f a
      · refine ⟨x, by simp, ?_⟩
        intro b hb
        rcases List.mem_cons.mp hb with hb | hb
        · exact hb ▸ le_refl _
        · exact le_trans hc (hmin b hb)
      · refine ⟨a, List.mem_cons_of_mem _ ha, ?_⟩
        intro b hb
        rcases List.mem_cons.mp hb with hb | hb
        · subst hb; omega
        · exact hmin b hb

theorem perm_of_nodup_subset_subset (l V : List String) (hl : l.Nodup)
    (hV : V.Nodup) (h1 : l ⊆ V) (h2 : V ⊆ l) : l.Perm V := by
  have hsub : l.Subperm V := hl.subperm h1
  have hsub2 : V.Subperm l := hV.subperm h2
  exact hsub.perm_of_length_le hsub2.length_le

/-- Main invariant proof for the `while queue` loop of Kahn's algorithm:
given the in-degree bookkeeping, frontier and emitted-prefix invariants,
the loop emits a permutation of all tasks that respects every edge. -/
theorem kahnLoop_spec (E : List IREdge) (V : List String) (hV : V.Nodup)
    (hsrcV : ∀ e ∈ E, e.source ∈ V) (htgtV : ∀ e ∈ E, e.target ∈ V)
    (rank : String → Nat) (hrank : ∀ e ∈ E, rank e.source < rank e.target) :
    ∀ (fuel : Nat) (emitted queue : List String) (indeg : List (String × Int)),
      (emitted ++ queue).Nodup →
      emitted ⊆ V → queue ⊆ V →
      (∀ v ∈ V, alGetI indeg v = some (countIn E emitted v)) →
      (∀ v, v ∉ V → alGetI indeg v = none) →
      (∀ v ∈ V, countIn E emitted v = 0 → v ∈ emitted ∨ v ∈ queue) →
      (∀ q ∈ queue, countIn E emitted q = 0) →
      (∀ e ∈ E, e.target ∈ emitted → beforeIn emitted e.source e.target) →
      V.length ≤ fuel + emitted.length →
      (emitted ++ kahnLoop (adjOf E) fuel queue indeg).Perm V ∧
      (∀ e ∈ E, beforeIn (emitted ++ kahnLoop (adjOf E) fuel queue indeg)
        e.source e.target) := by
  intro fuel
  induction fuel with
  | zero =>
    intro emitted queue indeg hnd hem hqV hI2 hI7 hI3 hI4 hI6 hI5
    rw [show kahnLoop (adjOf E) 0 queue indeg = [] from rfl, List.append_nil]
    have hndem : emitted.Nodup := (List.nodup_append.mp hnd).1
    have hsub : emitted.Subperm V := hndem.subperm hem
    have hperm : emitted.Perm V := hsub.perm_of_length_le (by simpa using hI5)
    refine ⟨hperm, ?_⟩
    intro e he
    exact hI6 e he (hperm.mem_iff.mpr (htgtV e he))
  | succ fuel ih =>
    intro emitted queue indeg hnd hem hqV hI2 hI7 hI3 hI4 hI6 hI5
    cases queue with
    | nil =>
      rw [show kahnLoop (adjOf E) (fuel + 1) [] indeg = [] from rfl,
        List.append_nil]
      have hVsub : V ⊆ emitted := by
        by_contra hnot
        rw [List.subset_def] at hnot
        push_neg at hnot
        obtain ⟨w, hwV, hwem⟩ := hnot
        have hSne : V.filter (fun v => !(emitted.contains v)) ≠ [] := by
          intro hnil
          have hw : w ∈ V.filter (fun v => !(emitted.contains v)) := by
            rw [List.mem_filter]
            exact ⟨hwV, by simp [List.contains, List.elem_eq_mem, hwem]⟩
          rw [hnil] at hw
          simp at hw
        obtain ⟨a, haS, hamin⟩ := exists_min_rank _ rank hSne
        rw [List.mem_filter] at haS
        obtain ⟨haV, haB⟩ := haS
        have haem : a ∉ emitted := by
          intro hmem
          simp [List.contains, List.elem_eq_mem, hmem] at haB
        have hcnt : countIn E emitted a ≠ 0 := by
          intro h0
          rcases hI3 a haV h0 with h | h
          · exact haem h
          · simp at h
        obtain ⟨e, heE, hetgt, hesrc⟩ := exists_edge_of_countIn_ne_zero _ _ _ hcnt
        have hsrcS : e.source ∈ V.filter (fun v => !(emitted.contains v)) := by
          rw [List.mem_filter]
          exact ⟨hsrcV e heE, by simp [List.contains, List.elem_eq_mem, hesrc]⟩
        have hle := hamin _ hsrcS
        have hlt := hrank e heE
        rw [hetgt] at hlt
        omega
      have hndem : emitted.Nodup := (List.nodup_append.mp hnd).1
      have hperm := perm_of_nodup_subset_subset emitted V hndem hV hem hVsub
      refine ⟨hperm, ?_⟩
      intro e he
      exact hI6 e he (hVsub (htgtV e he))
    | cons node rest =>
      have hstep : kahnLoop (adjOf E) (fuel + 1) (node :: rest) indeg =
          node :: kahnLoop (adjOf E) fuel
            (processTargets indeg rest (sortStr (adjOf E node))).2
            (processTargets indeg rest (sortStr (adjOf E node))).1 := rfl
      obtain ⟨pA, newly, pQ, pN, pC⟩ :=
        processTargets_spec (sortStr (adjOf E node)) indeg rest
      have hsortcnt : ∀ v, ((sortStr (adjOf E node)).count v) = (adjOf E node).count v :=
        fun v => (List.perm_insertionSort _ _).count_eq v
      have hnodeV : node ∈ V := hqV (List.mem_cons_self _ _)
      rw [List.nodup_append] at hnd
      obtain ⟨hndem, hndq, hdisj⟩ := hnd
      have hnodeEm : node ∉ emitted := fun hmem => hdisj hmem (List.mem_cons_self _ _)
      have hcnt0 : countIn E emitted node = 0 := hI4 node (List.mem_cons_self _ _)
      have hsplit : ∀ v, countIn E emitted v =
          countIn E (emitted ++ [node]) v + ((adjOf E node).count v : Int) :=
        fun v => countIn_split E emitted node v hnodeEm
      have hnewV : ∀ v ∈ newly, v ∈ V := by
        intro v hv
        by_contra hvV
        obtain ⟨c, hc, _, _⟩ := (pC v).mp hv
        rw [hI7 v hvV] at hc
        exact Option.noConfusion hc
      have hnewChar : ∀ v ∈ newly, countIn E emitted v ≠ 0 ∧
          countIn E (emitted ++ [node]) v = 0 := by
        intro v hv
        obtain ⟨c, hc, h1, h2⟩ := (pC v).mp hv
        rw [hI2 v (hnewV v hv)] at hc
        have hceq : countIn E emitted v = c := by
          injection hc
        rw [hsortcnt] at h2
        have := hsplit v
        have := countIn_nonneg E (emitted ++ [node]) v
        constructor <;> omega
      have hnewMem : ∀ v ∈ V, countIn E emitted v ≠ 0 →
          countIn E (emitted ++ [node]) v = 0 → v ∈ newly := by
        intro v hvV hne h0
        refine (pC v).mpr ⟨countIn E emitted v, hI2 v hvV, ?_, ?_⟩
        · have := countIn_nonneg E emitted v
          omega
        · rw [hsortcnt]
          have := hsplit v
          omega
      -- the new emitted prefix and queue
      have hemNodup' : ((emitted ++ [node]) ++ (rest ++ newly)).Nodup := by
        rw [List.nodup_append, List.nodup_append, List.nodup_append]
        have hnewNodisj : ∀ v ∈ newly, v ∉ emitted ∧ v ≠ node ∧ v ∉ rest := by
          intro v hv
          obtain ⟨hne, _⟩ := hnewChar v hv
          refine ⟨?_, ?_, ?_⟩
          · intro hmem
            exact hne (countIn_eq_zero_of_sources_emitted E emitted v
              (fun e he htgt => (hI6 e he (htgt ▸ hmem)).1))
          · intro hveq
            exact hne (hveq ▸ hcnt0)
          · intro hmem
            exact hne (hI4 v (List.mem_cons_of_mem _ hmem))
        refine ⟨⟨hndem, by simp, ?_⟩, ⟨(List.nodup_cons.mp hndq).2, pN, ?_⟩, ?_⟩
        · intro x hx
          simp only [List.mem_singleton]
          intro hxe
          exact hnodeEm (hxe ▸ hx)
        · intro x hx hxn
          exact (hnewNodisj x hxn).2.2 hx
        · intro x hx
          rcases List.mem_append.mp hx with hx | hx
          · intro hmem
            rcases List.mem_append.mp hmem with hmem | hmem
            · exact hdisj hx (List.mem_cons_of_mem _ hmem)
            · exact (hnewNodisj x hmem).1 hx
          · rw [List.mem_singleton] at hx
            subst hx
            intro hmem
            rcases List.mem_append.mp hmem with hmem | hmem
            · exact (List.nodup_cons.mp hndq).1 hmem
            · exact (hnewNodisj x hmem).2.1 rfl
      have hem' : (emitted ++ [node]) ⊆ V := by
        intro x hx
        rcases List.mem_append.mp hx with hx | hx
        · exact hem hx
        · rw [List.mem_singleton] at hx
          exact hx ▸ hnodeV
      have hq' : (rest ++ newly) ⊆ V := by
        intro x hx
        rcases List.mem_append.mp hx with hx | hx
        · exact hqV (List.mem_cons_of_mem _ hx)
        · exact hnewV x hx
      have hI2' : ∀ v ∈ V,
          alGetI (processTargets indeg rest (sortStr (adjOf E node))).1 v =
            some (countIn E (emitted ++ [node]) v) := by
        intro v hvV
        rw [pA v, hI2 v hvV]
        simp only [Option.map]
        rw [hsortcnt]
        congr 1
        have := hsplit v
        omega
      have hI7' : ∀ v, v ∉ V →
          alGetI (processTargets indeg rest (sortStr (adjOf E node))).1 v = none := by
        intro v hvV
        rw [pA v, hI7 v hvV]
        rfl
      have hI3' : ∀ v ∈ V, countIn E (emitted ++ [node]) v = 0 →
          v ∈ (emitted ++ [node]) ∨ v ∈ (rest ++ newly) := by
        intro v hvV h0
        by_cases hc : countIn E emitted v = 0
        · rcases hI3 v hvV hc with h | h
          · exact Or.inl (List.mem_append_left _ h)
          · rcases List.mem_cons.mp h with h | h
            · exact Or.inl (List.mem_append_right _ (by simp [h]))
            · exact Or.inr (List.mem_append_left _ h)
        · exact Or.inr (List.mem_append_right _ (hnewMem v hvV hc h0))
      have hI4' : ∀ q ∈ (rest ++ newly), countIn E (emitted ++ [node]) q = 0 := by
        intro q hq
        rcases List.mem_append.mp hq with hq | hq
        · have h0 := hI4 q (List.mem_cons_of_mem _ hq)
          have := hsplit q
          have := countIn_nonneg E (emitted ++ [node]) q
          have hcntnn : (0 : Int) ≤ ((adjOf E node).count q : Int) := by positivity
          omega
        · exact (hnewChar q hq).2
      have hI6' : ∀ e ∈ E, e.target ∈ (emitted ++ [node]) →
          beforeIn (emitted ++ [node]) e.source e.target := by
        intro e he htgt
        rcases List.mem_append.mp htgt with htgt | htgt
        · exact beforeIn_append_left _ _ _ _ (hI6 e he htgt)
        · rw [List.mem_singleton] at htgt
          have hsrcEm : e.source ∈ emitted :=
            sources_emitted_of_countIn_eq_zero E emitted node hcnt0 e he htgt
          rw [htgt]
          exact beforeIn_emitted_node emitted node e.source hsrcEm hnodeEm
      have hI5' : V.length ≤ fuel + (emitted ++ [node]).length := by
        rw [List.length_append, List.length_singleton]
        omega
      have hqrw : (processTargets indeg rest (sortStr (adjOf E node))).2 =
          rest ++ newly := pQ
      obtain ⟨hP, hB⟩ := ih (emitted ++ [node]) (rest ++ newly)
        (processTargets indeg rest (sortStr (adjOf E node))).1
        hemNodup' hem' hq' hI2' hI7' hI3' hI4' hI6' hI5'
      rw [hstep, hqrw] at *
      constructor
      · have heq : emitted ++ node :: kahnLoop (adjOf E) fuel (rest ++ newly)
            (processTargets indeg rest (sortStr (adjOf E node))).1 =
            (emitted ++ [node]) ++ kahnLoop (adjOf E) fuel (rest ++ newly)
              (processTargets indeg rest (sortStr (adjOf E node))).1 := by
          rw [List.append_assoc, List.singleton_append]
        rw [heq]
        exact hP
      · intro e he
        have heq : emitted ++ node :: kahnLoop (adjOf E) fuel (rest ++ newly)
            (processTargets indeg rest (sortStr (adjOf E node))).1 =
            (emitted ++ [node]) ++ kahnLoop (adjOf E) fuel (rest ++ newly)
              (processTargets indeg rest (sortStr (adjOf E node))).1 := by
          rw [List.append_assoc, List.singleton_append]
        rw [heq]
        exact hB e he

/-! ### Initial state of the orderer -/

theorem alGetI_foldl_bump (es : List IREdge) :
    ∀ (m : List (String × Int)) (v : String),
      alGetI (es.foldl (fun m e => alModify m e.target (fun d => d + 1)) m) v =
        (alGetI m v).map
          (fun c => c + ((es.filter (fun e => e.target == v)).length : Int)) := by
  induction es with
  | nil =>
    intro m v
    cases h : alGetI m v <;> simp [h]
  | cons e es ih =>
    intro m v
    rw [List.foldl_cons, ih, alGetI_alModify, List.filter_cons]
    by_cases hv : v = e.target
    · subst hv
      rw [if_pos rfl]
      simp only [beq_self_eq_true, if_true]
      cases h : alGetI m e.target with
      | none => simp [h]
      | some c =>
        simp [h]
        push_cast
        ring
    · rw [if_neg hv]
      have hne : (e.target == v) = false :=
        beq_eq_false_iff_ne.mpr (fun hh => hv hh.symm)
      rw [hne]
      simp

theorem alGetI_zero_map (V : List String) (v : String) :
    alGetI (V.map (fun k => (k, (0 : Int)))) v =
      if v ∈ V then some 0 else none := by
  induction V with
  | nil => simp [alGetI]
  | cons x rest ih =>
    rw [List.map_cons, alGetI_cons]
    by_cases hx : x = v
    · simp [hx]
    · rw [if_neg hx, ih]
      by_cases hv : v ∈ rest
      · have hmem : v ∈ x :: rest := List.mem_cons_of_mem _ hv
        simp [hv, hmem]
      · have hnv : v ∉ (x :: rest) := by
          rw [List.mem_cons]
          push_neg
          exact ⟨fun hh => hx hh.symm, hv⟩
        simp [hv, hnv]

theorem countIn_nil_emitted (E : List IREdge) (v : String) :
    countIn E [] v = ((E.filter (fun e => e.target == v)).length : Int) := by
  unfold countIn
  have hfe : List.filter
      (fun e => e.target == v && !(([] : List String).contains e.source)) E =
      List.filter (fun e => e.target == v) E := by
    apply List.filter_congr
    intro e _
    simp [List.contains]
  rw [hfe]

theorem initIndeg_value (flow : IRFlow) (v : String)
    (hv : v ∈ flow.tasks.map (·.1)) :
    alGetI (initIndeg flow) v = some (countIn flow.edges [] v) := by
  unfold initIndeg
  have hm : flow.tasks.map (fun p => (p.1, (0 : Int))) =
      (flow.tasks.map (·.1)).map (fun k => (k, (0 : Int))) := by
    rw [List.map_map]
    rfl
  rw [hm, alGetI_foldl_bump, alGetI_zero_map, if_pos hv, countIn_nil_emitted]
  simp

theorem seedQueue_subset (flow : IRFlow) :
    seedQueue flow ⊆ flow.tasks.map (·.1) := by
  intro x hx
  unfold seedQueue at hx
  obtain ⟨p, hp, hpx⟩ := List.mem_map.mp hx
  have hp' : p ∈ sortPairs (initIndeg flow) := (List.mem_filter.mp hp).1
  have hp'' : p ∈ initIndeg flow :=
    (List.perm_insertionSort _ _).mem_iff.mp hp'
  have hmem : p.1 ∈ (initIndeg flow).map (·.1) := List.mem_map.mpr ⟨p, hp'', rfl⟩
  rw [initIndeg_keys] at hmem
  exact hpx ▸ hmem

theorem seedQueue_nodup (flow : IRFlow)
    (hnd : (flow.tasks.map (·.1)).Nodup) : (seedQueue flow).Nodup := by
  unfold seedQueue
  have h1 : ((sortPairs (initIndeg flow)).map (·.1)).Nodup := by
    have hperm : (sortPairs (initIndeg flow)).Perm (initIndeg flow) :=
      List.perm_insertionSort _ _
    have := (hperm.map (·.1)).nodup_iff.mpr (initIndeg_keys flow ▸ hnd)
    exact this
  have hsub : List.Sublist
      (((sortPairs (initIndeg flow)).filter (fun p => p.2 = 0)).map (·.1))
      ((sortPairs (initIndeg flow)).map (·.1)) :=
    (List.filter_sublist _).map _
  exact h1.sublist hsub

theorem initIndeg_keys_nodup (flow : IRFlow)
    (hnd : (flow.tasks.map (·.1)).Nodup) : ((initIndeg flow).map (·.1)).Nodup := by
  rw [initIndeg_keys]
  exact hnd

theorem seedQueue_count_zero (flow : IRFlow)
    (hnd : (flow.tasks.map (·.1)).Nodup) :
    ∀ q ∈ seedQueue flow, countIn flow.edges [] q = 0 := by
  intro q hq
  obtain ⟨p, hp, hpx⟩ := List.mem_map.mp hq
  rw [List.mem_filter] at hp
  obtain ⟨hpsort, hp0⟩ := hp
  have hp2 : p.2 = 0 := by simpa using hp0
  have hpmem : p ∈ initIndeg flow :=
    (List.perm_insertionSort _ _).mem_iff.mp hpsort
  have hkeys := initIndeg_keys_nodup flow hnd
  have hget : alGetI (initIndeg flow) p.1 = some p.2 :=
    alGetI_mem_of_nodup _ _ _ hkeys (by cases p; exact hpmem)
  have hqmem : q ∈ flow.tasks.map (·.1) := seedQueue_subset flow hq
  have hval := initIndeg_value flow q hqmem
  rw [hpx] at hget
  rw [hget] at hval
  have heq : p.2 = countIn flow.edges [] q := by injection hval
  omega

theorem seedQueue_complete (flow : IRFlow)
    (hnd : (flow.tasks.map (·.1)).Nodup) :
    ∀ v ∈ flow.tasks.map (·.1), countIn flow.edges [] v = 0 →
      v ∈ seedQueue flow := by
  intro v hv h0
  have hget : alGetI (initIndeg flow) v = some 0 := by
    rw [initIndeg_value flow v hv, h0]
  have hmem : (v, (0 : Int)) ∈ initIndeg flow := mem_of_alGetI _ _ _ hget
  have hmem' : (v, (0 : Int)) ∈ sortPairs (initIndeg flow) :=
    (List.perm_insertionSort _ _).mem_iff.mpr hmem
  unfold seedQueue
  refine List.mem_map.mpr ⟨(v, 0), ?_, rfl⟩
  rw [List.mem_filter]
  exact ⟨hmem', by simp⟩

/-- C1: for every valid (acyclic, well-keyed) IRFlow, `_topological_order`
returns a permutation of all task names, and every edge's source appears
strictly before its target in the returned sequence. -/
theorem topological_order_perm_and_edge_order (flow : IRFlow)
    (hnd : (flow.tasks.map (·.1)).Nodup)
    (hsrc : ∀ e ∈ flow.edges, e.source ∈ flow.tasks.map (·.1))
    (htgt : ∀ e ∈ flow.edges, e.target ∈ flow.tasks.map (·.1))
    (hacyc : Acyclic flow.edges) :
    (_topological_order flow).Perm (flow.tasks.map (·.1)) ∧
    ∀ e ∈ flow.edges, beforeIn (_topological_order flow) e.source e.target := by
  obtain ⟨rank, hrank⟩ := hacyc
  have h := kahnLoop_spec flow.edges (flow.tasks.map (·.1)) hnd hsrc htgt rank hrank
    flow.tasks.length [] (seedQueue flow) (initIndeg flow)
    (by simpa using seedQueue_nodup flow hnd)
    (List.nil_subset _)
    (seedQueue_subset flow)
    (fun v hv => initIndeg_value flow v hv)
    (fun v hv => alGetI_eq_none_of_not_key _ _ (by rw [initIndeg_keys]; exact hv))
    (fun v hv h0 => Or.inr (seedQueue_complete flow hnd v hv h0))
    (seedQueue_count_zero flow hnd)
    (by intro e _ htgt'; simp at htgt')
    (by rw [List.length_map]; omega)
  rw [show _topological_order flow =
    kahnLoop (adjOf flow.edges) flow.tasks.length (seedQueue flow)
      (initIndeg flow) from rfl]
  simpa using h

/-- Witness for C1 at `exFlow` (acyclicity witnessed by an explicit rank). -/
theorem topological_order_perm_and_edge_order_witness :
    (_topological_order exFlow).Perm (exFlow.tasks.map (·.1)) ∧
    ∀ e ∈ exFlow.edges, beforeIn (_topological_order exFlow) e.source e.target :=
  topological_order_perm_and_edge_order exFlow (by decide) (by decide) (by decide)
    ⟨fun s => if s = "b" then 1 else 0, by decide⟩

/-! ### The emitted order stays within the task keys -/

theorem processTargets_keys (ts : List String) :
    ∀ (indeg : List (String × Int)) (queue : List String),
      (processTargets indeg queue ts).1.map (·.1) = indeg.map (·.1) := by
  induction ts with
  | nil => intro indeg queue; rfl
  | cons t ts ih =>
    intro indeg queue
    have hstep : processTargets indeg queue (t :: ts) =
        processTargets (alModify indeg t (fun d => d - 1))
          (if alGetI (alModify indeg t (fun d => d - 1)) t = some 0
            then queue ++ [t] else queue) ts := rfl
    rw [hstep, ih]
    exact alModify_keys _ _ _

theorem kahnLoop_mem_subset (adj : String → List String) :
    ∀ (fuel : Nat) (queue : List String) (indeg : List (String × Int))
      (x : String), x ∈ kahnLoop adj fuel queue indeg →
      x ∈ queue ∨ x ∈ indeg.map (·.1) := by
  intro fuel
  induction fuel with
  | zero => intro queue indeg x hx; simp [kahnLoop] at hx
  | succ fuel ih =>
    intro queue indeg x hx
    cases queue with
    | nil => simp [kahnLoop] at hx
    | cons node rest =>
      rw [show kahnLoop adj (fuel + 1) (node :: rest) indeg =
          node :: kahnLoop adj fuel
            (processTargets indeg rest (sortStr (adj node))).2
            (processTargets indeg rest (sortStr (adj node))).1 from rfl] at hx
      rcases List.mem_cons.mp hx with hx | hx
      · exact Or.inl (hx ▸ List.mem_cons_self _ _)
      · rcases ih _ _ _ hx with hx | hx
        · obtain ⟨pA, newly, pQ, pN, pC⟩ :=
            processTargets_spec (sortStr (adj node)) indeg rest
          rw [pQ] at hx
          rcases List.mem_append.mp hx with hx | hx
          · exact Or.inl (List.mem_cons_of_mem _ hx)
          · obtain ⟨c, hc, _, _⟩ := (pC x).mp hx
            refine Or.inr (List.mem_map.mpr ⟨(x, c), mem_of_alGetI _ _ _ hc, rfl⟩)
        · rw [processTargets_keys] at hx
          exact Or.inr hx

theorem topological_order_subset (flow : IRFlow) :
    ∀ x ∈ _topological_order flow, x ∈ flow.tasks.map (·.1) := by
  intro x hx
  rcases kahnLoop_mem_subset (adjOf flow.edges) flow.tasks.length
      (seedQueue flow) (initIndeg flow) x hx with h | h
  · exact seedQueue_subset flow h
  · rw [initIndeg_keys] at h
    exact h

/-! ### Task lookup helpers -/

theorem alGet_cons (p : String × IRTask) (rest : List (String × IRTask))
    (k : String) :
    alGet (p :: rest) k = if p.1 = k then some p.2 else alGet rest k := by
  by_cases h : p.1 = k <;> simp [alGet, List.find?_cons, h]

theorem alGet_some_mem (m : List (String × IRTask)) (k : String) (t : IRTask)
    (h : alGet m k = some t) : ∃ p ∈ m, p.1 = k ∧ p.2 = t := by
  induction m with
  | nil => simp [alGet] at h
  | cons p rest ih =>
    rw [alGet_cons] at h
    split at h
    case isTrue hp =>
      exact ⟨p, List.mem_cons_self _ _, hp, by injection h⟩
    case isFalse hp =>
      obtain ⟨q, hq, hq1, hq2⟩ := ih h
      exact ⟨q, List.mem_cons_of_mem _ hq, hq1, hq2⟩

theorem alGet_some_of_mem_keys (m : List (String × IRTask)) (k : String)
    (h : k ∈ m.map (·.1)) : ∃ t, alGet m k = some t := by
  induction m with
  | nil => simp at h
  | cons p rest ih =>
    rw [alGet_cons]
    by_cases hp : p.1 = k
    · exact ⟨p.2, by rw [if_pos hp]⟩
    · rw [if_neg hp]
      apply ih
      simp only [List.map_cons, List.mem_cons] at h
      rcases h with h | h
      · exact absurd h.symm hp
      · exact h

/-- C7: the two target projections agree on task order — the Waterfall
spec's task-name sequence is exactly the shared topological order, and
the Monolith payload list is exactly that same name sequence projected
to payloads. -/
theorem projections_agree_on_order (flow : IRFlow)
    (hkeys : ∀ p ∈ flow.tasks, p.2.name = p.1) :
    ((ir_to_waterfall_spec flow).tasks.map (fun t => t.name)) =
      _topological_order flow ∧
    ir_to_monolith_tasks flow =
      (ir_to_waterfall_spec flow).tasks.filterMap
        (fun wt => (alGet flow.tasks wt.name).map (monolithPayload flow)) := by
  have hlook : ∀ x ∈ _topological_order flow,
      ∃ t, alGet flow.tasks x = some t ∧ t.name = x := by
    intro x hx
    obtain ⟨t, ht⟩ :=
      alGet_some_of_mem_keys flow.tasks x (topological_order_subset flow x hx)
    obtain ⟨p, hpmem, hp1, hp2⟩ := alGet_some_mem _ _ _ ht
    exact ⟨t, ht, by rw [← hp2, hkeys p hpmem, hp1]⟩
  show ((_topological_order flow).filterMap _).map _ = _ ∧
    (_topological_order flow).filterMap _ = _
  suffices h : ∀ l : List String, (∀ x ∈ l, x ∈ _topological_order flow) →
      ((l.filterMap (fun name => (alGet flow.tasks name).map
          (fun t => ({ name := t.name, agent := t.agent, priority := t.priority
                       timeout_ms := t.timeout_ms, labels := t.labels } : WTask)))).map
        (fun t => t.name)) = l ∧
      l.filterMap (fun name => (alGet flow.tasks name).map (monolithPayload flow)) =
        (l.filterMap (fun name => (alGet flow.tasks name).map
          (fun t => ({ name := t.name, agent := t.agent, priority := t.priority
                       timeout_ms := t.timeout_ms, labels := t.labels } : WTask)))).filterMap
          (fun wt => (alGet flow.tasks wt.name).map (monolithPayload flow)) by
    exact h (_topological_order flow) (fun x hx => hx)
  intro l
  induction l with
  | nil => intro _; exact ⟨rfl, rfl⟩
  | cons x xs ih =>
    intro hsub
    obtain ⟨t, hget, hname⟩ := hlook x (hsub x (List.mem_cons_self _ _))
    obtain ⟨ih1, ih2⟩ := ih (fun y hy => hsub y (List.mem_cons_of_mem _ hy))
    have hfw : (fun name => (alGet flow.tasks name).map
        (fun t => ({ name := t.name, agent := t.agent, priority := t.priority
                     timeout_ms := t.timeout_ms, labels := t.labels } : WTask))) x =
        some ({ name := t.name, agent := t.agent, priority := t.priority
                timeout_ms := t.timeout_ms, labels := t.labels } : WTask) := by
      show (alGet flow.tasks x).map _ = _
      rw [hget]
      rfl
    have hfm : (fun name => (alGet flow.tasks name).map (monolithPayload flow)) x =
        some (monolithPayload flow t) := by
      show (alGet flow.tasks x).map _ = _
      rw [hget]
      rfl
    have hfw2 : (fun wt : WTask => (alGet flow.tasks wt.name).map (monolithPayload flow))
        ({ name := t.name, agent := t.agent, priority := t.priority
           timeout_ms := t.timeout_ms, labels := t.labels } : WTask) =
        some (monolithPayload flow t) := by
      show (alGet flow.tasks t.name).map (monolithPayload flow) = _
      rw [hname, hget]
      rfl
    constructor
    · rw [@List.filterMap_cons_some String WTask
        (fun name => (alGet flow.tasks name).map
          (fun t => ({ name := t.name, agent := t.agent, priority := t.priority
                       timeout_ms := t.timeout_ms, labels := t.labels } : WTask)))
        x xs _ hfw]
      rw [List.map_cons, ih1]
      show t.name :: xs = x :: xs
      rw [hname]
    · rw [@List.filterMap_cons_some String MonolithPayload
        (fun name => (alGet flow.tasks name).map (monolithPayload flow)) x xs _ hfm]
      rw [@List.filterMap_cons_some String WTask
        (fun name => (alGet flow.tasks name).map
          (fun t => ({ name := t.name, agent := t.agent, priority := t.priority
                       timeout_ms := t.timeout_ms, labels := t.labels } : WTask)))
        x xs _ hfw]
      rw [@List.filterMap_cons_some WTask MonolithPayload
        (fun wt => (alGet flow.tasks wt.name).map (monolithPayload flow))
        _ _ _ hfw2]
      rw [ih2]

/-- Witness for C7 at `exFlow`. -/
theorem projections_agree_on_order_witness :
    ((ir_to_waterfall_spec exFlow).tasks.map (fun t => t.name)) =
      _topological_order exFlow ∧
    ir_to_monolith_tasks exFlow =
      (ir_to_waterfall_spec exFlow).tasks.filterMap
        (fun wt => (alGet exFlow.tasks wt.name).map (monolithPayload exFlow)) :=
  projections_agree_on_order exFlow (by decide)

/-! ### DFS cycle check: fuel sufficiency -/

theorem dfs_fuel_sufficient (adj : String → List String) (V : List String)
    (hadjV : ∀ x ∈ V, ∀ y ∈ adj x, y ∈ V) :
    ∀ fuel : Nat,
      (∀ visiting visited node, visiting.Nodup → visiting ⊆ V →
        visiting.Nodup → node ∈ V → V.length < fuel + visiting.length →
        dfsT adj fuel visiting visited node ≠ none) := by
  intro fuel
  induction fuel with
  | zero =>
    intro visiting visited node hnd hsub _ _ hlen
    have : visiting.length ≤ V.length := (hnd.subperm hsub).length_le
    omega
  | succ fuel ih =>
    have hlist : ∀ (visiting visited : List String) (nodes : List String),
        visiting.Nodup → visiting ⊆ V → (∀ x ∈ nodes, x ∈ V) →
        V.length < fuel + visiting.length →
        dfsListT adj fuel visiting visited nodes ≠ none := by
      intro visiting visited nodes
      induction nodes generalizing visited with
      | nil => intro _ _ _ _ h; simp [dfsListT] at h
      | cons x xs ihx =>
        intro hnd hsub hin hlen h
        rw [show dfsListT adj fuel visiting visited (x :: xs) =
          (match dfsT adj fuel visiting visited x with
            | none => none
            | some (.error v) => some (.error v)
            | some (.ok visited') => dfsListT adj fuel visiting visited' xs)
          from by simp [dfsListT]] at h
        rcases hres : dfsT adj fuel visiting visited x with _ | res
        · exact ih visiting visited x hnd hsub hnd (hin x (List.mem_cons_self _ _)) hlen hres
        · rw [hres] at h
          cases res with
          | error v => simp at h
          | ok visited' =>
            exact ihx visited' hnd hsub
              (fun y hy => hin y (List.mem_cons_of_mem _ hy)) hlen h
    intro visiting visited node hnd hsub _ hnode hlen h
    rw [show dfsT adj (fuel + 1) visiting visited node =
        (if node ∈ visiting then some (.error node)
         else if node ∈ visited then some (.ok visited)
         else match dfsListT adj fuel (node :: visiting) visited (adj node) with
           | none => none
           | some (.error v) => some (.error v)
           | some (.ok visited') => some (.ok (node :: visited')))
        from by simp [dfsT]] at h
    by_cases h1 : node ∈ visiting
    · rw [if_pos h1] at h; exact Option.noConfusion h
    · rw [if_neg h1] at h
      by_cases h2 : node ∈ visited
      · rw [if_pos h2] at h; exact Option.noConfusion h
      · rw [if_neg h2] at h
        rcases hres : dfsListT adj fuel (node :: visiting) visited (adj node)
          with _ | res
        · refine hlist (node :: visiting) visited (adj node)
            (List.nodup_cons.mpr ⟨h1, hnd⟩)
            (fun y hy => by
              rcases List.mem_cons.mp hy with hy | hy
              · exact hy ▸ hnode
              · exact hsub hy)
            (fun y hy => hadjV node hnode y hy)
            (by rw [List.length_cons]; omega) hres
        · rw [hres] at h
          cases res <;> simp at h

/-! ### DFS cycle check: success builds a reverse-topological finish list -/

theorem indexOf_cons_ne (x y : String) (l : List String) (h : y ≠ x) :
    (x :: l).indexOf y = l.indexOf y + 1 := by
  rw [List.indexOf_cons]
  have : (x == y) = false := beq_eq_false_iff_ne.mpr (fun hh => h hh.symm)
  rw [this]
  rfl

/-- If the DFS call returns `ok L`, then `L` extends `visited` with
fresh nodes not on the stack, stays duplicate-free, every processed
node's successors are processed and finish earlier (appear later in
`L`... i.e. have a strictly larger index than the node), and `node`
itself is processed. -/
theorem dfs_ok_spec (adj : String → List String) :
    ∀ fuel : Nat, ∀ visiting visited node L,
      dfsT adj fuel visiting visited node = some (.ok L) →
      visited.Nodup →
      (∀ u ∈ visited, ∀ w ∈ adj u,
        w ∈ visited ∧ visited.indexOf u < visited.indexOf w) →
      (∀ x ∈ visited, x ∉ visiting) →
      (∃ pre, L = pre ++ visited ∧ (∀ x ∈ pre, x ∉ visiting)) ∧
      L.Nodup ∧
      (∀ u ∈ L, ∀ w ∈ adj u, w ∈ L ∧ L.indexOf u < L.indexOf w) ∧
      node ∈ L := by
  intro fuel
  induction fuel with
  | zero =>
    intro visiting visited node L h
    simp [dfsT] at h
  | succ fuel ih =>
    have hlist : ∀ (visiting visited : List String) (nodes : List String) (L : List String),
        dfsListT adj fuel visiting visited nodes = some (.ok L) →
        visited.Nodup →
        (∀ u ∈ visited, ∀ w ∈ adj u,
          w ∈ visited ∧ visited.indexOf u < visited.indexOf w) →
        (∀ x ∈ visited, x ∉ visiting) →
        (∃ pre, L = pre ++ visited ∧ (∀ x ∈ pre, x ∉ visiting)) ∧
        L.Nodup ∧
        (∀ u ∈ L, ∀ w ∈ adj u, w ∈ L ∧ L.indexOf u < L.indexOf w) ∧
        (∀ x ∈ nodes, x ∈ L) := by
      intro visiting visited nodes
      induction nodes generalizing visited with
      | nil =>
        intro L h hnd hgood hdisj
        simp [dfsListT] at h
        subst h
        exact ⟨⟨[], rfl, by simp⟩, hnd, hgood, by simp⟩
      | cons x xs ihx =>
        intro L h hnd hgood hdisj
        rw [show dfsListT adj fuel visiting visited (x :: xs) =
          (match dfsT adj fuel visiting visited x with
            | none => none
            | some (.error v) => some (.error v)
            | some (.ok visited') => dfsListT adj fuel visiting visited' xs)
          from by simp [dfsListT]] at h
        rcases hres : dfsT adj fuel visiting visited x with _ | res
        · rw [hres] at h; exact Option.noConfusion h
        · rw [hres] at h
          cases res with
          | error v => simp at h
          | ok visited₁ =>
            obtain ⟨⟨pre₁, hL₁, hpre₁⟩, hnd₁, hgood₁, hx₁⟩ :=
              ih visiting visited x visited₁ hres hnd hgood hdisj
            have hdisj₁ : ∀ y ∈ visited₁, y ∉ visiting := by
              intro y hy
              rw [hL₁] at hy
              rcases List.mem_append.mp hy with hy | hy
              · exact hpre₁ y hy
              · exact hdisj y hy
            obtain ⟨⟨pre₂, hL₂, hpre₂⟩, hnd₂, hgood₂, hxs₂⟩ :=
              ihx visited₁ L h hnd₁ hgood₁ hdisj₁
            refine ⟨⟨pre₂ ++ pre₁, by rw [hL₂, hL₁, List.append_assoc], ?_⟩,
              hnd₂, hgood₂, ?_⟩
            · intro y hy
              rcases List.mem_append.mp hy with hy | hy
              · exact hpre₂ y hy
              · exact hpre₁ y hy
            · intro y hy
              rcases List.mem_cons.mp hy with hy | hy
              · subst hy
                rw [hL₂]
                exact List.mem_append_right _ hx₁
              · exact hxs₂ y hy
    intro visiting visited node L h hnd hgood hdisj
    rw [show dfsT adj (fuel + 1) visiting visited node =
        (if node ∈ visiting then some (.error node)
         else if node ∈ visited then some (.ok visited)
         else match dfsListT adj fuel (node :: visiting) visited (adj node) with
           | none => none
           | some (.error v) => some (.error v)
           | some (.ok visited') => some (.ok (node :: visited')))
        from by simp [dfsT]] at h
    by_cases h1 : node ∈ visiting
    · rw [if_pos h1] at h; exact Except.noConfusion (Option.some.inj h)
    · rw [if_neg h1] at h
      by_cases h2 : node ∈ visited
      · rw [if_pos h2] at h
        have hL : L = visited := (Except.ok.inj (Option.some.inj h)).symm
        subst hL
        exact ⟨⟨[], rfl, by simp⟩, hnd, hgood, h2⟩
      · rw [if_neg h2] at h
        rcases hres : dfsListT adj fuel (node :: visiting) visited (adj node)
          with _ | res
        · rw [hres] at h; exact Option.noConfusion h
        · rw [hres] at h
          cases res with
          | error v => simp at h
          | ok visited' =>
            have hL : L = node :: visited' :=
              (Except.ok.inj (Option.some.inj h)).symm
            have hdisj' : ∀ x ∈ visited, x ∉ node :: visiting := by
              intro x hx
              rw [List.mem_cons]
              push_neg
              exact ⟨fun hh => h2 (hh ▸ hx), hdisj x hx⟩
            obtain ⟨⟨pre', hL', hpre'⟩, hnd', hgood', hch'⟩ :=
              hlist (node :: visiting) visited (adj node) visited' hres
                hnd hgood hdisj'
            have hnodeNot : node ∉ visited' := by
              rw [hL']
              intro hmem
              rcases List.mem_append.mp hmem with hmem | hmem
              · exact hpre' node hmem (List.mem_cons_self _ _)
              · exact h2 hmem
            subst hL
            refine ⟨⟨node :: pre', by rw [hL']; rfl, ?_⟩, ?_, ?_, ?_⟩
            · intro y hy
              rcases List.mem_cons.mp hy with hy | hy
              · exact hy ▸ h1
              · exact fun hmem => hpre' y hy (List.mem_cons_of_mem _ hmem)
            · exact List.nodup_cons.mpr ⟨hnodeNot, hnd'⟩
            · intro u hu w hw
              rcases List.mem_cons.mp hu with hu | hu
              · subst hu
                have hwv : w ∈ visited' := hch' w hw
                have hwne : w ≠ u := fun hh => hnodeNot (hh ▸ hwv)
                refine ⟨List.mem_cons_of_mem _ hwv, ?_⟩
                rw [indexOf_cons_ne _ _ _ hwne]
                simp
              · have hune : u ≠ node := fun hh => hnodeNot (hh ▸ hu)
                obtain ⟨hwv, hlt⟩ := hgood' u hu w hw
                have hwne : w ≠ node := fun hh => hnodeNot (hh ▸ hwv)
                refine ⟨List.mem_cons_of_mem _ hwv, ?_⟩
                rw [indexOf_cons_ne _ _ _ hune, indexOf_cons_ne _ _ _ hwne]
                omega
            · exact List.mem_cons_self _ _

/-! ### DFS cycle check: an error names a node on a cycle -/

theorem chain_append_singleton (R : String → String → Prop) :
    ∀ (l : List String) (a b : String), List.Chain R a l →
      (∀ c, (a :: l).getLast? = some c → R c b) → List.Chain R a (l ++ [b]) := by
  intro l
  induction l with
  | nil =>
    intro a b _ hlast
    exact List.Chain.cons (hlast a rfl) List.Chain.nil
  | cons c t ih =>
    intro a b hchain hlast
    rcases List.chain_cons.mp hchain with ⟨hac, hct⟩
    refine List.chain_cons.mpr ⟨hac, ih c b hct ?_⟩
    intro d hd
    exact hlast d (by rw [List.getLast?_cons_cons]; exact hd)

/-- The recursion stack read bottom-up is a path in the graph; hence
finding `node` already on the stack closes a directed cycle through it. -/
theorem stack_cycle (adj : String → List String) (visiting : List String)
    (node : String)
    (hchain : List.Chain' (fun a b => a ∈ adj b) visiting)
    (hmem : node ∈ visiting)
    (hhead : ∀ h vt, visiting = h :: vt → node ∈ adj h) :
    ∃ l, List.Chain (fun a b => b ∈ adj a) node (l ++ [node]) := by
  obtain ⟨A, B, hAB⟩ := List.append_of_mem hmem
  have hrev : List.Chain' (fun a b => b ∈ adj a) visiting.reverse := by
    rw [List.chain'_reverse]
    exact hchain
  have hsplit : visiting.reverse = B.reverse ++ (node :: A.reverse) := by
    rw [hAB]
    rw [List.reverse_append, List.reverse_cons, List.append_assoc]
    rfl
  have hsuffix : List.Chain' (fun a b => b ∈ adj a) (node :: A.reverse) := by
    refine List.Chain'.suffix hrev ?_
    rw [hsplit]
    exact ⟨B.reverse, rfl⟩
  have hchainA : List.Chain (fun a b => b ∈ adj a) node A.reverse := hsuffix
  cases hA : A with
  | nil =>
    have hhd : node ∈ adj node := by
      apply hhead node (B)
      rw [hAB, hA]
      rfl
    exact ⟨[], List.Chain.cons hhd List.Chain.nil⟩
  | cons a0 at0 =>
    have hlast : (node :: A.reverse).getLast? = some a0 := by
      rw [hA]
      rw [show (node :: (a0 :: at0).reverse) = (node :: at0.reverse) ++ [a0] by
        rw [List.reverse_cons]; rfl]
      exact List.getLast?_concat _
    have hhd : node ∈ adj a0 := by
      apply hhead a0 (at0 ++ node :: B)
      rw [hAB, hA]
      rfl
    refine ⟨A.reverse, chain_append_singleton _ A.reverse node node hchainA ?_⟩
    intro c hc
    rw [hlast] at hc
    injection hc with hc
    rw [← hc]
    exact hhd

theorem dfs_err_spec (adj : String → List String) :
    ∀ fuel : Nat, ∀ visiting visited node v,
      dfsT adj fuel visiting visited node = some (.error v) →
      List.Chain' (fun a b => a ∈ adj b) visiting →
      (∀ h vt, visiting = h :: vt → node ∈ adj h) →
      ∃ l, List.Chain (fun a b => b ∈ adj a) v (l ++ [v]) := by
  intro fuel
  induction fuel with
  | zero =>
    intro visiting visited node v h
    simp [dfsT] at h
  | succ fuel ih =>
    have hlist : ∀ (h0 : String) (vt : List String) (visited nodes : List String)
        (v : String),
        dfsListT adj fuel (h0 :: vt) visited nodes = some (.error v) →
        List.Chain' (fun a b => a ∈ adj b) (h0 :: vt) →
        (∀ x ∈ nodes, x ∈ adj h0) →
        ∃ l, List.Chain (fun a b => b ∈ adj a) v (l ++ [v]) := by
      intro h0 vt visited nodes
      induction nodes generalizing visited with
      | nil =>
        intro v h
        simp [dfsListT] at h
      | cons x xs ihx =>
        intro v h hchain hin
        rw [show dfsListT adj fuel (h0 :: vt) visited (x :: xs) =
          (match dfsT adj fuel (h0 :: vt) visited x with
            | none => none
            | some (.error w) => some (.error w)
            | some (.ok visited') => dfsListT adj fuel (h0 :: vt) visited' xs)
          from by simp [dfsListT]] at h
        rcases hres : dfsT adj fuel (h0 :: vt) visited x with _ | res
        · rw [hres] at h; exact Option.noConfusion h
        · rw [hres] at h
          cases res with
          | error w =>
            have hvw : w = v := by
              injection h with hh
              injection hh
            subst hvw
            exact ih (h0 :: vt) visited x w hres hchain
              (fun hh vtt heq => by
                injection heq with he1 he2
                exact he1 ▸ hin x (List.mem_cons_self _ _))
          | ok visited' =>
            exact ihx visited' v h hchain
              (fun y hy => hin y (List.mem_cons_of_mem _ hy))
    intro visiting visited node v h hchain hhead
    rw [show dfsT adj (fuel + 1) visiting visited node =
        (if node ∈ visiting then some (.error node)
         else if node ∈ visited then some (.ok visited)
         else match dfsListT adj fuel (node :: visiting) visited (adj node) with
           | none => none
           | some (.error w) => some (.error w)
           | some (.ok visited') => some (.ok (node :: visited')))
        from by simp [dfsT]] at h
    by_cases h1 : node ∈ visiting
    · rw [if_pos h1] at h
      have hv : node = v := by
        injection h with hh
        injection hh
      subst hv
      exact stack_cycle adj visiting node hchain h1 hhead
    · rw [if_neg h1] at h
      by_cases h2 : node ∈ visited
      · rw [if_pos h2] at h
        exact Except.noConfusion (Option.some.inj h)
      · rw [if_neg h2] at h
        rcases hres : dfsListT adj fuel (node :: visiting) visited (adj node)
          with _ | res
        · rw [hres] at h; exact Option.noConfusion h
        · rw [hres] at h
          cases res with
          | error w =>
            have hvw : w = v := by
              injection h with hh
              injection hh
            subst hvw
            have hchain' : List.Chain' (fun a b => a ∈ adj b) (node :: visiting) := by
              cases hvis : visiting with
              | nil => simp
              | cons h0 vt =>
                rw [List.chain'_cons]
                rw [hvis] at hchain
                exact ⟨hhead h0 vt hvis, hchain⟩
            exact hlist node visiting visited (adj node) w hres hchain'
              (fun y hy => hy)
          | ok visited' =>
            exact Except.noConfusion (Option.some.inj h)

/-! ### The whole-graph check -/

theorem dedupAppend_mem (acc : List String) (x y : String) :
    y ∈ dedupAppend acc x ↔ y ∈ acc ∨ y = x := by
  unfold dedupAppend
  split
  case isTrue h =>
    constructor
    · exact fun hy => Or.inl hy
    · rintro (hy | hy)
      · exact hy
      · exact hy ▸ h
  case isFalse h => simp

theorem foldl_dedupAppend_mem (l : List String) :
    ∀ (acc : List String) (x : String),
      x ∈ l.foldl dedupAppend acc ↔ x ∈ acc ∨ x ∈ l := by
  induction l with
  | nil => intro acc x; simp
  | cons y ys ih =>
    intro acc x
    rw [List.foldl_cons, ih, dedupAppend_mem]
    constructor
    · rintro ((h | h) | h)
      · exact Or.inl h
      · exact Or.inr (h ▸ List.mem_cons_self _ _)
      · exact Or.inr (List.mem_cons_of_mem _ h)
    · rintro (h | h)
      · exact Or.inl (Or.inl h)
      · rcases List.mem_cons.mp h with h | h
        · exact Or.inl (Or.inr h)
        · exact Or.inr h

theorem graphAdj_mem (edges : List IREdge) (u w : String) :
    w ∈ graphAdj edges u ↔ hasEdge edges u w := by
  unfold graphAdj
  rw [foldl_dedupAppend_mem]
  simp only [List.mem_map, List.mem_filter, false_or]
  constructor
  · rintro (h | ⟨e, ⟨he, hsrc⟩, htgt⟩)
    · simp at h
    · exact ⟨e, he, by simpa using hsrc, htgt⟩
  · rintro ⟨e, he, hsrc, htgt⟩
    exact Or.inr ⟨e, ⟨he, by simpa using hsrc⟩, htgt⟩

theorem assertDagLoop_ne_none (adj : String → List String) (V : List String)
    (hadjV : ∀ x ∈ V, ∀ y ∈ adj x, y ∈ V) (fuel : Nat)
    (hfuel : V.length < fuel) :
    ∀ (roots visited : List String), (∀ r ∈ roots, r ∈ V) →
      assertDagLoop adj fuel visited roots ≠ none := by
  intro roots
  induction roots with
  | nil => intro visited _ h; simp [assertDagLoop] at h
  | cons r rs ih =>
    intro visited hroots h
    rw [show assertDagLoop adj fuel visited (r :: rs) =
      (match dfsT adj fuel [] visited r with
        | none => none
        | some (.error v) => some (.error v)
        | some (.ok visited') => assertDagLoop adj fuel visited' rs)
      from by simp [assertDagLoop]] at h
    rcases hres : dfsT adj fuel [] visited r with _ | res
    · exact dfs_fuel_sufficient adj V hadjV fuel [] visited r
        List.nodup_nil (List.nil_subset _) List.nodup_nil
        (hroots r (List.mem_cons_self _ _)) (by simpa using hfuel) hres
    · rw [hres] at h
      cases res with
      | error v => simp at h
      | ok visited' =>
        exact ih visited' (fun y hy => hroots y (List.mem_cons_of_mem _ hy)) h

theorem assertDagLoop_mono (adj : String → List String) (fuel : Nat) :
    ∀ (roots visited L : List String),
      assertDagLoop adj fuel visited roots = some (.ok L) →
      visited.Nodup →
      (∀ u ∈ visited, ∀ w ∈ adj u,
        w ∈ visited ∧ visited.indexOf u < visited.indexOf w) →
      ∀ x ∈ visited, x ∈ L := by
  intro roots
  induction roots with
  | nil =>
    intro visited L h _ _ x hx
    simp [assertDagLoop] at h
    exact h ▸ hx
  | cons r rs ih =>
    intro visited L h hnd hgood x hx
    rw [show assertDagLoop adj fuel visited (r :: rs) =
      (match dfsT adj fuel [] visited r with
        | none => none
        | some (.error v) => some (.error v)
        | some (.ok visited') => assertDagLoop adj fuel visited' rs)
      from by simp [assertDagLoop]] at h
    rcases hres : dfsT adj fuel [] visited r with _ | res
    · rw [hres] at h; exact Option.noConfusion h
    · rw [hres] at h
      cases res with
      | error v => simp at h
      | ok visited₁ =>
        obtain ⟨⟨pre₁, hL₁, _⟩, hnd₁, hgood₁, _⟩ :=
          dfs_ok_spec adj fuel [] visited r visited₁ hres hnd hgood (by simp)
        exact ih visited₁ L h hnd₁ hgood₁ x (hL₁ ▸ List.mem_append_right _ hx)

theorem assertDagLoop_ok_spec (adj : String → List String) (fuel : Nat) :
    ∀ (roots visited L : List String),
      assertDagLoop adj fuel visited roots = some (.ok L) →
      visited.Nodup →
      (∀ u ∈ visited, ∀ w ∈ adj u,
        w ∈ visited ∧ visited.indexOf u < visited.indexOf w) →
      L.Nodup ∧
      (∀ u ∈ L, ∀ w ∈ adj u, w ∈ L ∧ L.indexOf u < L.indexOf w) ∧
      (∀ r ∈ roots, r ∈ L) := by
  intro roots
  induction roots with
  | nil =>
    intro visited L h hnd hgood
    simp [assertDagLoop] at h
    subst h
    exact ⟨hnd, hgood, by simp⟩
  | cons r rs ih =>
    intro visited L h hnd hgood
    rw [show assertDagLoop adj fuel visited (r :: rs) =
      (match dfsT adj fuel [] visited r with
        | none => none
        | some (.error v) => some (.error v)
        | some (.ok visited') => assertDagLoop adj fuel visited' rs)
      from by simp [assertDagLoop]] at h
    rcases hres : dfsT adj fuel [] visited r with _ | res
    · rw [hres] at h; exact Option.noConfusion h
    · rw [hres] at h
      cases res with
      | error v => simp at h
      | ok visited₁ =>
        obtain ⟨⟨pre₁, hL₁, _⟩, hnd₁, hgood₁, hr₁⟩ :=
          dfs_ok_spec adj fuel [] visited r visited₁ hres hnd hgood (by simp)
        obtain ⟨hndL, hgoodL, hrs⟩ := ih visited₁ L h hnd₁ hgood₁
        refine ⟨hndL, hgoodL, ?_⟩
        intro y hy
        rcases List.mem_cons.mp hy with hy | hy
        · subst hy
          exact assertDagLoop_mono adj fuel rs visited₁ L h hnd₁ hgood₁ y hr₁
        · exact hrs y hy

theorem assertDagLoop_err_spec (adj : String → List String) (fuel : Nat) :
    ∀ (roots visited : List String) (v : String),
      assertDagLoop adj fuel visited roots = some (.error v) →
      ∃ l, List.Chain (fun a b => b ∈ adj a) v (l ++ [v]) := by
  intro roots
  induction roots with
  | nil => intro visited v h; simp [assertDagLoop] at h
  | cons r rs ih =>
    intro visited v h
    rw [show assertDagLoop adj fuel visited (r :: rs) =
      (match dfsT adj fuel [] visited r with
        | none => none
        | some (.error w) => some (.error w)
        | some (.ok visited') => assertDagLoop adj fuel visited' rs)
      from by simp [assertDagLoop]] at h
    rcases hres : dfsT adj fuel [] visited r with _ | res
    · rw [hres] at h; exact Option.noConfusion h
    · rw [hres] at h
      cases res with
      | error w =>
        have hw : w = v := by
          injection h with hh
          injection hh
        subst hw
        exact dfs_err_spec adj fuel [] visited r w hres (by simp)
          (fun h0 vt heq => List.noConfusion heq)
      | ok visited' => exact ih visited' v h

theorem assert_dag_ne_none (tasks : List (String × IRTask)) (edges : List IREdge)
    (hsrc : ∀ e ∈ edges, e.source ∈ tasks.map (·.1))
    (htgt : ∀ e ∈ edges, e.target ∈ tasks.map (·.1)) :
    assert_dag tasks edges ≠ none := by
  unfold assert_dag
  refine assertDagLoop_ne_none (graphAdj edges) (tasks.map (·.1)) ?_ _
    (by rw [List.length_map]; omega) _ [] (fun r hr => hr)
  intro x hx y hy
  obtain ⟨e, he, _, htgt'⟩ := (graphAdj_mem edges x y).mp hy
  exact htgt' ▸ htgt e he

theorem assert_dag_ok_acyclic (tasks : List (String × IRTask))
    (edges : List IREdge) (L : List String)
    (h : assert_dag tasks edges = some (.ok L))
    (hsrc : ∀ e ∈ edges, e.source ∈ tasks.map (·.1)) :
    Acyclic edges := by
  unfold assert_dag at h
  obtain ⟨hnd, hgood, hroots⟩ :=
    assertDagLoop_ok_spec (graphAdj edges) (tasks.length + 1)
      (tasks.map (·.1)) [] L h List.nodup_nil (by simp)
  refine ⟨fun s => L.indexOf s, ?_⟩
  intro e he
  have hu : e.source ∈ L := hroots _ (hsrc e he)
  have hw : e.target ∈ graphAdj edges e.source :=
    (graphAdj_mem edges e.source e.target).mpr ⟨e, he, rfl, rfl⟩
  exact (hgood e.source hu e.target hw).2

theorem chain_rank_increasing (edges : List IREdge) (rank : String → Nat)
    (hrank : ∀ e ∈ edges, rank e.source < rank e.target) :
    ∀ (l : List String) (a : String), List.Chain (hasEdge edges) a l →
      ∀ x ∈ l, rank a < rank x := by
  intro l
  induction l with
  | nil => intro a _ x hx; simp at hx
  | cons b t ih =>
    intro a hchain x hx
    rcases List.chain_cons.mp hchain with ⟨hab, hbt⟩
    obtain ⟨e, he, hes, het⟩ := hab
    have hlt : rank a < rank b := by
      have := hrank e he
      rw [hes, het] at this
      exact this
    rcases List.mem_cons.mp hx with hx | hx
    · exact hx ▸ hlt
    · exact lt_trans hlt (ih b hbt x hx)

theorem cycle_not_acyclic (edges : List IREdge) (v : String) (l : List String)
    (hchain : List.Chain (hasEdge edges) v (l ++ [v])) (hacyc : Acyclic edges) :
    False := by
  obtain ⟨rank, hrank⟩ := hacyc
  have := chain_rank_increasing edges rank hrank (l ++ [v]) v hchain v
    (List.mem_append_right _ (by simp))
  omega

theorem assert_dag_err_on_cycle (tasks : List (String × IRTask))
    (edges : List IREdge) (v : String)
    (h : assert_dag tasks edges = some (.error v)) : OnCycle edges v := by
  unfold assert_dag at h
  obtain ⟨l, hchain⟩ :=
    assertDagLoop_err_spec (graphAdj edges) (tasks.length + 1)
      (tasks.map (·.1)) [] v h
  exact ⟨l, List.Chain.imp (fun a b hb => (graphAdj_mem edges a b).mp hb) hchain⟩

/-! ### The validator's task and edge loops -/

theorem buildTasks_ok_spec :
    ∀ (ts : List TaskNode) (seen : List String)
      (acc res : List (String × IRTask)),
      buildTasks ts seen acc = .ok res →
      acc.map (·.1) = seen → seen.Nodup →
      res.map (·.1) = acc.map (·.1) ++ ts.map (·.name) ∧
      (res.map (·.1)).Nodup ∧
      (∀ p ∈ res, p ∈ acc ∨ (p.2.name = p.1 ∧ pyStrip p.1 ≠ "" ∧
        pyStrip p.2.agent ≠ "" ∧ 0 < p.2.timeout_ms)) := by
  intro ts
  induction ts with
  | nil =>
    intro seen acc res h hkeys hnd
    have hres : acc = res := by
      simpa [buildTasks] using h
    subst hres
    exact ⟨by simp, hkeys ▸ hnd, fun p hp => Or.inl hp⟩
  | cons t ts ih =>
    intro seen acc res h hkeys hnd
    rw [show buildTasks (t :: ts) seen acc =
      (if pyStrip t.name = "" then .error .emptyTaskName
       else if t.name ∈ seen then .error (.duplicateTask t.name)
       else if pyStrip t.agent = "" then .error (.emptyAgent t.name)
       else
         match intField t.resources "priority" DEFAULT_PRIORITY t.name with
         | .error e => .error e
         | .ok priority =>
           match intField t.resources "timeout_ms" DEFAULT_TIMEOUT_MS t.name with
           | .error e => .error e
           | .ok timeout_ms =>
             if timeout_ms ≤ 0 then .error (.timeoutNotPositive t.name)
             else
               buildTasks ts (seen ++ [t.name])
                 (acc ++ [(t.name,
                   { name := t.name, agent := t.agent, input := t.input
                     priority := priority, timeout_ms := timeout_ms
                     labels := t.labels })])) from rfl] at h
    by_cases h1 : pyStrip t.name = ""
    · rw [if_pos h1] at h; exact Except.noConfusion h
    · rw [if_neg h1] at h
      by_cases h2 : t.name ∈ seen
      · rw [if_pos h2] at h; exact Except.noConfusion h
      · rw [if_neg h2] at h
        by_cases h3 : pyStrip t.agent = ""
        · rw [if_pos h3] at h; exact Except.noConfusion h
        · rw [if_neg h3] at h
          rcases hp : intField t.resources "priority" DEFAULT_PRIORITY t.name
            with ep | priority
          · simp only [hp] at h
            exact Except.noConfusion h
          · simp only [hp] at h
            rcases htm : intField t.resources "timeout_ms" DEFAULT_TIMEOUT_MS t.name
              with et | timeout_ms
            · simp only [htm] at h
              exact Except.noConfusion h
            · simp only [htm] at h
              by_cases h4 : timeout_ms ≤ 0
              · rw [if_pos h4] at h; exact Except.noConfusion h
              · rw [if_neg h4] at h
                obtain ⟨hkeys', hnd', hprops⟩ := ih (seen ++ [t.name]) _ res h
                  (by rw [List.map_append, hkeys]; rfl)
                  (by
                    rw [List.nodup_append]
                    exact ⟨hnd, by simp, by
                      intro x hx
                      simp only [List.mem_singleton]
                      intro hxe
                      exact h2 (hxe ▸ hx)⟩)
                refine ⟨?_, hnd', ?_⟩
                · rw [hkeys']
                  simp
                · intro p hp'
                  rcases hprops p hp' with hmem | hp2
                  · rcases List.mem_append.mp hmem with hmem | hmem
                    · exact Or.inl hmem
                    · rw [List.mem_singleton] at hmem
                      subst hmem
                      exact Or.inr ⟨rfl, h1, h3, by show 0 < timeout_ms; omega⟩
                  · exact Or.inr hp2

theorem buildEdges_ok_spec (ir_tasks : List (String × IRTask)) :
    ∀ (es : List Edge) (acc res : List IREdge),
      buildEdges ir_tasks es acc = .ok res →
      res = acc ++ es.map (fun e =>
        { source := e.source, target := e.target, condition := e.condition }) ∧
      (∀ e ∈ res, e ∈ acc ∨ (e.source ∈ ir_tasks.map (·.1) ∧
        e.target ∈ ir_tasks.map (·.1))) := by
  intro es
  induction es with
  | nil =>
    intro acc res h
    have : acc = res := by simpa [buildEdges] using h
    subst this
    exact ⟨by simp, fun e he => Or.inl he⟩
  | cons e es ih =>
    intro acc res h
    rw [show buildEdges ir_tasks (e :: es) acc =
      (if e.source ∉ ir_tasks.map (·.1) then .error (.unknownSource e.source)
       else if e.target ∉ ir_tasks.map (·.1) then .error (.unknownTarget e.target)
       else buildEdges ir_tasks es
         (acc ++ [{ source := e.source, target := e.target,
                    condition := e.condition }])) from rfl] at h
    by_cases h1 : e.source ∉ ir_tasks.map (·.1)
    · rw [if_pos h1] at h; exact Except.noConfusion h
    · rw [if_neg h1] at h
      by_cases h2 : e.target ∉ ir_tasks.map (·.1)
      · rw [if_pos h2] at h; exact Except.noConfusion h
      · rw [if_neg h2] at h
        obtain ⟨hres, hprops⟩ := ih _ res h
        refine ⟨by rw [hres]; simp, ?_⟩
        intro e' he'
        rcases hprops e' he' with hmem | hp
        · rcases List.mem_append.mp hmem with hmem | hmem
          · exact Or.inl hmem
          · rw [List.mem_singleton] at hmem
            subst hmem
            exact Or.inr ⟨not_not.mp h1, not_not.mp h2⟩
        · exact Or.inr hp

/-! ### Claim C3: invariants of every validator output -/

/-- **C3.**  Every `IRFlow` the validator returns satisfies the
structural invariants: trimmed `id` and `tenant` are non-empty, at least
one task exists, the task keys are pairwise distinct, every task's name
equals its key and is non-empty after trimming, every agent is non-empty
after trimming, every timeout is strictly positive, every edge's
endpoints are task keys, the edge graph is acyclic, and the risk level
is one of the four valid values; on any violated invariant the validator
returns an error and no `IRFlow` is produced (the `Except` result is
total: it is `.ok` or `.error`, never a partial value). -/
theorem validator_output_invariants (doc : FlowDocument) (flow : IRFlow)
    (h : validate_and_normalize doc = .ok flow) :
    pyStrip flow.id ≠ "" ∧ pyStrip flow.tenant ≠ "" ∧
    flow.tasks ≠ [] ∧
    (flow.tasks.map (·.1)).Nodup ∧
    (∀ p ∈ flow.tasks, p.2.name = p.1 ∧ pyStrip p.1 ≠ "" ∧
      pyStrip p.2.agent ≠ "" ∧ 0 < p.2.timeout_ms) ∧
    (∀ e ∈ flow.edges, e.source ∈ flow.tasks.map (·.1) ∧
      e.target ∈ flow.tasks.map (·.1)) ∧
    Acyclic flow.edges ∧
    flow.policy.risk_level ∈ VALID_RISK_LEVELS := by
  unfold validate_and_normalize at h
  by_cases hid : pyStrip doc.id = ""
  · rw [if_pos hid] at h; exact Except.noConfusion h
  · rw [if_neg hid] at h
    by_cases hten : pyStrip doc.tenant = ""
    · rw [if_pos hten] at h; exact Except.noConfusion h
    · rw [if_neg hten] at h
      by_cases hemp : doc.tasks.isEmpty = true
      · rw [if_pos hemp] at h; exact Except.noConfusion h
      · rw [if_neg hemp] at h
        rcases hbt : buildTasks doc.tasks [] [] with e | ir_tasks
        · simp only [hbt] at h
          exact Except.noConfusion h
        · simp only [hbt] at h
          rcases hbe : buildEdges ir_tasks doc.edges [] with e | ir_edges
          · simp only [hbe] at h
            exact Except.noConfusion h
          · simp only [hbe] at h
            by_cases hrisk : doc.policy.risk_level ∈ VALID_RISK_LEVELS
            · rw [if_pos hrisk] at h
              rcases hdag : assert_dag ir_tasks ir_edges with _ | res
              · simp only [hdag] at h
                exact Except.noConfusion h
              · simp only [hdag] at h
                cases res with
                | error v => exact Except.noConfusion h
                | ok L =>
                  have hflow :
                      flow = { id := doc.id, tenant := doc.tenant
                               tasks := ir_tasks, edges := ir_edges
                               policy :=
                                 { risk_level := doc.policy.risk_level
                                   requires_approval := doc.policy.requires_approval
                                   retention := doc.policy.retention } } := by
                    injection h with h'
                    exact h'.symm
                  obtain ⟨hkeys, hnd, htasks⟩ :=
                    buildTasks_ok_spec doc.tasks [] [] ir_tasks hbt rfl List.nodup_nil
                  obtain ⟨_, hedges⟩ :=
                    buildEdges_ok_spec ir_tasks doc.edges [] ir_edges hbe
                  have hedges' : ∀ e ∈ ir_edges,
                      e.source ∈ ir_tasks.map (·.1) ∧ e.target ∈ ir_tasks.map (·.1) := by
                    intro e he
                    rcases hedges e he with hmem | hp
                    · exact absurd hmem (List.not_mem_nil e)
                    · exact hp
                  have hacyc : Acyclic ir_edges :=
                    assert_dag_ok_acyclic ir_tasks ir_edges L hdag
                      (fun e he => (hedges' e he).1)
                  have hne : ir_tasks ≠ [] := by
                    intro hnil
                    rw [hnil] at hkeys
                    have : doc.tasks.map (·.name) = [] := by simpa using hkeys.symm
                    rw [List.map_eq_nil_iff] at this
                    rw [this] at hemp
                    exact hemp rfl
                  subst hflow
                  exact ⟨hid, hten, hne, hnd,
                    fun p hp => (htasks p hp).resolve_left (List.not_mem_nil p),
                    hedges', hacyc, hrisk⟩
            · rw [if_neg hrisk] at h; exact Except.noConfusion h

theorem validator_output_invariants_witness :
    validate_and_normalize exDocValid = .ok exFlowValid ∧
    (pyStrip exFlowValid.id ≠ "" ∧ pyStrip exFlowValid.tenant ≠ "" ∧
    exFlowValid.tasks ≠ [] ∧
    (exFlowValid.tasks.map (·.1)).Nodup ∧
    (∀ p ∈ exFlowValid.tasks, p.2.name = p.1 ∧ pyStrip p.1 ≠ "" ∧
      pyStrip p.2.agent ≠ "" ∧ 0 < p.2.timeout_ms) ∧
    (∀ e ∈ exFlowValid.edges, e.source ∈ exFlowValid.tasks.map (·.1) ∧
      e.target ∈ exFlowValid.tasks.map (·.1)) ∧
    Acyclic exFlowValid.edges ∧
    exFlowValid.policy.risk_level ∈ VALID_RISK_LEVELS) := by
  have hrun : validate_and_normalize exDocValid = .ok exFlowValid := by
    simp [validate_and_normalize, buildTasks, buildEdges, intField, mGet,
      assert_dag, assertDagLoop, dfsT, dfsListT, graphAdj, dedupAppend,
      pyStrip, exDocValid, exFlowValid, exTaskNode, VALID_RISK_LEVELS,
      DEFAULT_PRIORITY, DEFAULT_TIMEOUT_MS]
  exact ⟨hrun, validator_output_invariants exDocValid exFlowValid hrun⟩

/-! ### Claim C4: cycles of length at least two are reported -/

/-- **C4.**  For every document that passes all earlier validation rules
(non-empty trimmed id and tenant, non-empty task list, per-task and
per-edge checks succeed, valid risk level) and whose edge set contains a
directed cycle of length at least two (a chain of at least two edges
from `u` back to `u`), validation fails with the cycle-detection error,
and the task it names lies on a cycle of the dependency graph. -/
theorem validator_reports_cycle (doc : FlowDocument)
    (ir_tasks : List (String × IRTask)) (ir_edges : List IREdge)
    (u : String) (l : List String)
    (hid : pyStrip doc.id ≠ "") (hten : pyStrip doc.tenant ≠ "")
    (hemp : doc.tasks.isEmpty = false)
    (hbt : buildTasks doc.tasks [] [] = .ok ir_tasks)
    (hbe : buildEdges ir_tasks doc.edges [] = .ok ir_edges)
    (hrisk : doc.policy.risk_level ∈ VALID_RISK_LEVELS)
    (hchain : List.Chain (hasEdge ir_edges) u (l ++ [u])) (hl : l ≠ []) :
    ∃ v, validate_and_normalize doc = .error (.cycleDetected v) ∧
      OnCycle ir_edges v := by
  obtain ⟨_, hedges⟩ := buildEdges_ok_spec ir_tasks doc.edges [] ir_edges hbe
  have hedges' : ∀ e ∈ ir_edges,
      e.source ∈ ir_tasks.map (·.1) ∧ e.target ∈ ir_tasks.map (·.1) := by
    intro e he
    rcases hedges e he with hmem | hp
    · exact absurd hmem (List.not_mem_nil e)
    · exact hp
  have hnotacyc : ¬ Acyclic ir_edges := fun hacyc =>
    cycle_not_acyclic ir_edges u l hchain hacyc
  rcases hdag : assert_dag ir_tasks ir_edges with _ | res
  · exact absurd hdag
      (assert_dag_ne_none ir_tasks ir_edges
        (fun e he => (hedges' e he).1) (fun e he => (hedges' e he).2))
  · cases res with
    | ok L =>
      exact absurd
        (assert_dag_ok_acyclic ir_tasks ir_edges L hdag
          (fun e he => (hedges' e he).1)) hnotacyc
    | error v =>
      refine ⟨v, ?_, assert_dag_err_on_cycle ir_tasks ir_edges v hdag⟩
      unfold validate_and_normalize
      rw [if_neg hid, if_neg hten, if_neg (by rw [hemp]; exact Bool.false_ne_true)]
      simp only [hbt, hbe, if_pos hrisk, hdag]

theorem validator_reports_cycle_witness :
    ∃ v, validate_and_normalize exDocCycle = .error (.cycleDetected v) ∧
      OnCycle [{ source := "a", target := "b", condition := none },
               { source := "b", target := "a", condition := none }] v :=
  validator_reports_cycle exDocCycle
    [("a", { name := "a", agent := "x", input := []
             priority := 0, timeout_ms := 10000, labels := [] }),
     ("b", { name := "b", agent := "x", input := []
             priority := 0, timeout_ms := 10000, labels := [] })]
    [{ source := "a", target := "b", condition := none },
     { source := "b", target := "a", condition := none }]
    "a" ["b"]
    (by decide) (by decide) (by decide)
    (by simp [buildTasks, intField, mGet, exDocCycle, exTaskNode,
      pyStrip, DEFAULT_PRIORITY, DEFAULT_TIMEOUT_MS])
    (by simp [buildEdges, exDocCycle])
    (by decide)
    (List.Chain.cons
      ⟨{ source := "a", target := "b", condition := none },
        by simp, rfl, rfl⟩
      (List.Chain.cons
        ⟨{ source := "b", target := "a", condition := none },
          by simp, rfl, rfl⟩ List.Chain.nil))
    (by decide)

/-! ### Claim C10: self-loops -/

/-- **C10, counterexample.**  `exDocShadowedSelfLoop` passes all earlier
validation rules and contains the self-loop edge `z → z`, yet validation
reports the cycle error naming `a` (the first task of the 2-cycle
`a → b → a` that the DFS reaches first), not the self-loop task `z`. -/
theorem selfloop_task_not_named :
    (∃ e ∈ exDocShadowedSelfLoop.edges, e.source = e.target ∧ e.source = "z") ∧
    validate_and_normalize exDocShadowedSelfLoop = .error (.cycleDetected "a") ∧
    "a" ≠ "z" := by
  refine ⟨⟨{ source := "z", target := "z", condition := none },
    by simp [exDocShadowedSelfLoop], rfl, rfl⟩, ?_, by decide⟩
  simp [validate_and_normalize, buildTasks, buildEdges, intField, mGet,
    assert_dag, assertDagLoop, dfsT, dfsListT, graphAdj, dedupAppend,
    pyStrip, exDocShadowedSelfLoop, exTaskNode, VALID_RISK_LEVELS,
    DEFAULT_PRIORITY, DEFAULT_TIMEOUT_MS]

/-- **C10, amended.**  For every document that passes all earlier
validation rules and contains an edge whose source equals its target,
validation fails with the cycle-detection error; the task it names lies
on some cycle of the dependency graph, but it need not be the self-loop
task itself. -/
theorem validator_reports_selfloop (doc : FlowDocument)
    (ir_tasks : List (String × IRTask)) (ir_edges : List IREdge)
    (e : IREdge)
    (hid : pyStrip doc.id ≠ "") (hten : pyStrip doc.tenant ≠ "")
    (hemp : doc.tasks.isEmpty = false)
    (hbt : buildTasks doc.tasks [] [] = .ok ir_tasks)
    (hbe : buildEdges ir_tasks doc.edges [] = .ok ir_edges)
    (hrisk : doc.policy.risk_level ∈ VALID_RISK_LEVELS)
    (he : e ∈ ir_edges) (hsl : e.source = e.target) :
    ∃ v, validate_and_normalize doc = .error (.cycleDetected v) ∧
      OnCycle ir_edges v := by
  obtain ⟨_, hedges⟩ := buildEdges_ok_spec ir_tasks doc.edges [] ir_edges hbe
  have hedges' : ∀ e ∈ ir_edges,
      e.source ∈ ir_tasks.map (·.1) ∧ e.target ∈ ir_tasks.map (·.1) := by
    intro e he
    rcases hedges e he with hmem | hp
    · exact absurd hmem (List.not_mem_nil e)
    · exact hp
  have hnotacyc : ¬ Acyclic ir_edges := by
    rintro ⟨rank, hr⟩
    have := hr e he
    rw [hsl] at this
    exact lt_irrefl _ this
  rcases hdag : assert_dag ir_tasks ir_edges with _ | res
  · exact absurd hdag
      (assert_dag_ne_none ir_tasks ir_edges
        (fun e he => (hedges' e he).1) (fun e he => (hedges' e he).2))
  · cases res with
    | ok L =>
      exact absurd
        (assert_dag_ok_acyclic ir_tasks ir_edges L hdag
          (fun e he => (hedges' e he).1)) hnotacyc
    | error v =>
      refine ⟨v, ?_, assert_dag_err_on_cycle ir_tasks ir_edges v hdag⟩
      unfold validate_and_normalize
      rw [if_neg hid, if_neg hten, if_neg (by rw [hemp]; exact Bool.false_ne_true)]
      simp only [hbt, hbe, if_pos hrisk, hdag]

theorem validator_reports_selfloop_witness :
    ∃ v, validate_and_normalize exDocSelfLoop = .error (.cycleDetected v) ∧
      OnCycle [{ source := "z", target := "z", condition := none }] v :=
  validator_reports_selfloop exDocSelfLoop
    [("a", { name := "a", agent := "x", input := []
             priority := 0, timeout_ms := 10000, labels := [] }),
     ("z", { name := "z", agent := "x", input := []
             priority := 0, timeout_ms := 10000, labels := [] })]
    [{ source := "z", target := "z", condition := none }]
    { source := "z", target := "z", condition := none }
    (by decide) (by decide) (by decide)
    (by simp [buildTasks, intField, mGet, exDocSelfLoop, exTaskNode,
      pyStrip, DEFAULT_PRIORITY, DEFAULT_TIMEOUT_MS])
    (by simp [buildEdges, exDocSelfLoop])
    (by decide)
    (by simp) rfl

/-! ### Claim C6: the parser's failure modes -/

theorem ebind_err {α β : Type} (f : PFail) (g : α → Except PFail β) :
    (do let x ← (Except.error f : Except PFail α); g x) = Except.error f := rfl

theorem ebind_ok {α β : Type} (a : α) (g : α → Except PFail β) :
    (do let x ← (Except.ok a : Except PFail α); g x) = g a := rfl

theorem pyIntE_err (v : Val) (f : PFail) (h : pyIntE v = .error f) :
    f = .pyException "int() of non-integer value" := by
  unfold pyIntE at h
  rcases hv : pyInt v with _ | n <;> simp only [hv] at h
  · injection h with h'
    exact h'.symm
  · exact Except.noConfusion h

theorem pyDictE_err (v : Val) (f : PFail) (h : pyDictE v = .error f) :
    f = .pyException "dict() of non-mapping value" := by
  unfold pyDictE at h
  by_cases ht : pyTruthy v = true
  · rw [if_pos ht] at h
    rcases hd : pyDict v with _ | d <;> simp only [hd] at h
    · injection h with h'
      exact h'.symm
    · exact Except.noConfusion h
  · rw [if_neg ht] at h
    exact Except.noConfusion h

theorem requireList_ok (m : List (String × Val)) (k : String) (xs : List Val)
    (h : requireList m k = .ok xs) : pyOpt (mGet m k) = some (.vlist xs) := by
  unfold requireList at h
  rcases ho : pyOpt (mGet m k) with _ | v
  · simp only [ho] at h
    exact Except.noConfusion h
  · cases v <;> simp only [ho] at h
    all_goals first
      | exact Except.noConfusion h
      | (injection h with h'; rw [h'])

theorem requireList_err_tasks (m : List (String × Val)) (f : PFail)
    (h : requireList m "tasks" = .error f) :
    condTasksBad (.ok (.vmap m)) = true := by
  unfold requireList at h
  unfold condTasksBad
  rcases ho : pyOpt (mGet m "tasks") with _ | v
  · simp [ho]
  · cases v <;> simp only [ho] at h ⊢
    all_goals first
      | exact Except.noConfusion h
      | simp [isVList]

theorem parseTasks_err_parseError :
    ∀ (xs : List Val) (msg : String),
      parseTasks xs = .error (.parseError msg) →
      xs.any (fun x => !isVMap x) = true := by
  intro xs
  induction xs with
  | nil =>
    intro msg h
    exact Except.noConfusion h
  | cons t ts ih =>
    intro msg h
    cases t with
    | vmap tm =>
      rw [show parseTasks (.vmap tm :: ts) = (do
        let inp ← pyDictE ((mGet tm "input").getD (.vmap []))
        let res ← pyDictE ((mGet tm "resources").getD (.vmap []))
        let lab ← pyDictE ((mGet tm "labels").getD (.vmap []))
        let rest ← parseTasks ts
        .ok ({ name := pyStr ((mGet tm "name").getD (.vstr ""))
               agent := pyStr ((mGet tm "agent").getD (.vstr ""))
               input := inp, resources := res, labels := lab } :: rest))
        from rfl] at h
      rcases h1 : pyDictE ((mGet tm "input").getD (.vmap [])) with f | inp
      · rw [h1, ebind_err] at h
        injection h with h'
        rw [pyDictE_err _ _ h1] at h'
        exact PFail.noConfusion h'
      · rw [h1, ebind_ok] at h
        rcases h2 : pyDictE ((mGet tm "resources").getD (.vmap [])) with f | res
        · rw [h2, ebind_err] at h
          injection h with h'
          rw [pyDictE_err _ _ h2] at h'
          exact PFail.noConfusion h'
        · rw [h2, ebind_ok] at h
          rcases h3 : pyDictE ((mGet tm "labels").getD (.vmap [])) with f | lab
          · rw [h3, ebind_err] at h
            injection h with h'
            rw [pyDictE_err _ _ h3] at h'
            exact PFail.noConfusion h'
          · rw [h3, ebind_ok] at h
            rcases h4 : parseTasks ts with f | rest
            · rw [h4, ebind_err] at h
              injection h with h'
              subst h'
              have hts := ih msg h4
              simp [hts]
            · rw [h4, ebind_ok] at h
              exact Except.noConfusion h
    | vnull => simp [isVMap]
    | vbool b => simp [isVMap]
    | vint n => simp [isVMap]
    | vstr s => simp [isVMap]
    | vlist l => simp [isVMap]

theorem parseTasks_ok_allmaps :
    ∀ (xs : List Val) (ts' : List TaskNode), parseTasks xs = .ok ts' →
      xs.any (fun x => !isVMap x) = false := by
  intro xs
  induction xs with
  | nil => intro ts' h; rfl
  | cons t ts ih =>
    intro ts' h
    cases t with
    | vmap tm =>
      rw [show parseTasks (.vmap tm :: ts) = (do
        let inp ← pyDictE ((mGet tm "input").getD (.vmap []))
        let res ← pyDictE ((mGet tm "resources").getD (.vmap []))
        let lab ← pyDictE ((mGet tm "labels").getD (.vmap []))
        let rest ← parseTasks ts
        .ok ({ name := pyStr ((mGet tm "name").getD (.vstr ""))
               agent := pyStr ((mGet tm "agent").getD (.vstr ""))
               input := inp, resources := res, labels := lab } :: rest))
        from rfl] at h
      rcases h1 : pyDictE ((mGet tm "input").getD (.vmap [])) with f | inp
      · rw [h1, ebind_err] at h
        exact Except.noConfusion h
      · rw [h1, ebind_ok] at h
        rcases h2 : pyDictE ((mGet tm "resources").getD (.vmap [])) with f | res
        · rw [h2, ebind_err] at h
          exact Except.noConfusion h
        · rw [h2, ebind_ok] at h
          rcases h3 : pyDictE ((mGet tm "labels").getD (.vmap [])) with f | lab
          · rw [h3, ebind_err] at h
            exact Except.noConfusion h
          · rw [h3, ebind_ok] at h
            rcases h4 : parseTasks ts with f | rest
            · rw [h4, ebind_err] at h
              exact Except.noConfusion h
            · have hts := ih rest h4
              simp only [List.any_cons, isVMap, Bool.not_true, Bool.false_or]
              exact hts
    | vnull => exact Except.noConfusion h
    | vbool b => exact Except.noConfusion h
    | vint n => exact Except.noConfusion h
    | vstr s => exact Except.noConfusion h
    | vlist l => exact Except.noConfusion h

theorem parseEdges_err_parseError :
    ∀ (ys : List Val) (msg : String),
      parseEdges ys = .error (.parseError msg) →
      ys.any (fun y => !isVMap y) = true := by
  intro ys
  induction ys with
  | nil =>
    intro msg h
    exact Except.noConfusion h
  | cons e es ih =>
    intro msg h
    cases e with
    | vmap em =>
      rw [show parseEdges (.vmap em :: es) = (do
        let rest ← parseEdges es
        .ok ({ source := pyStr ((mGet em "from").getD (.vstr ""))
               target := pyStr ((mGet em "to").getD (.vstr ""))
               condition := pyOpt (mGet em "condition") } :: rest))
        from rfl] at h
      rcases h4 : parseEdges es with f | rest
      · rw [h4, ebind_err] at h
        injection h with h'
        subst h'
        have hes := ih msg h4
        simp [hes]
      · rw [h4, ebind_ok] at h
        exact Except.noConfusion h
    | vnull => simp [isVMap]
    | vbool b => simp [isVMap]
    | vint n => simp [isVMap]
    | vstr s => simp [isVMap]
    | vlist l => simp [isVMap]

theorem parseEdges_ok_allmaps :
    ∀ (ys : List Val) (es' : List Edge), parseEdges ys = .ok es' →
      ys.any (fun y => !isVMap y) = false := by
  intro ys
  induction ys with
  | nil => intro es' h; rfl
  | cons e es ih =>
    intro es' h
    cases e with
    | vmap em =>
      rw [show parseEdges (.vmap em :: es) = (do
        let rest ← parseEdges es
        .ok ({ source := pyStr ((mGet em "from").getD (.vstr ""))
               target := pyStr ((mGet em "to").getD (.vstr ""))
               condition := pyOpt (mGet em "condition") } :: rest))
        from rfl] at h
      rcases h4 : parseEdges es with f | rest
      · rw [h4, ebind_err] at h
        exact Except.noConfusion h
      · have hes := ih rest h4
        simp only [List.any_cons, isVMap, Bool.not_true, Bool.false_or]
        exact hes
    | vnull => exact Except.noConfusion h
    | vbool b => exact Except.noConfusion h
    | vint n => exact Except.noConfusion h
    | vstr s => exact Except.noConfusion h
    | vlist l => exact Except.noConfusion h

theorem getEdgesList_err_cond (m : List (String × Val)) (f : PFail)
    (h : getEdgesList m = .error f) : condEdgesBad (.ok (.vmap m)) = true := by
  unfold getEdgesList at h
  unfold condEdgesBad
  rcases he : mGet m "edges" with _ | v
  · simp only [he] at h
    exact Except.noConfusion h
  · simp only [he] at h ⊢
    by_cases ht : pyTruthy v = true
    · rw [if_pos ht] at h
      cases v with
      | vlist xs => exact Except.noConfusion h
      | vnull => simp [ht, isVList]
      | vbool b => simp [ht, isVList]
      | vint n => simp [ht, isVList]
      | vstr s => simp [ht, isVList]
      | vmap mm => simp [ht, isVList]
    · rw [if_neg ht] at h
      exact Except.noConfusion h

theorem getEdgesList_ok_cond (m : List (String × Val)) (ys : List Val)
    (h : getEdgesList m = .ok ys) : condEdgesBad (.ok (.vmap m)) = false := by
  unfold getEdgesList at h
  unfold condEdgesBad
  rcases he : mGet m "edges" with _ | v
  · simp [he]
  · simp only [he] at h ⊢
    by_cases ht : pyTruthy v = true
    · rw [if_pos ht] at h
      cases v with
      | vlist xs => simp [isVList]
      | vnull => exact Except.noConfusion h
      | vbool b => exact Except.noConfusion h
      | vint n => exact Except.noConfusion h
      | vstr s => exact Except.noConfusion h
      | vmap mm => exact Except.noConfusion h
    · have ht' : pyTruthy v = false := by
        revert ht
        cases pyTruthy v <;> simp
      simp [ht']

theorem getEdgesList_ok_vlist (m : List (String × Val)) (ys zs : List Val)
    (h : getEdgesList m = .ok ys)
    (he : mGet m "edges" = some (.vlist zs)) : zs = ys := by
  unfold getEdgesList at h
  simp only [he] at h
  by_cases ht : pyTruthy (Val.vlist zs) = true
  · rw [if_pos ht] at h
    exact Except.ok.inj h
  · rw [if_neg ht] at h
    have h' := Except.ok.inj h
    have hz : zs = [] := by
      revert ht
      unfold pyTruthy
      cases zs <;> simp
    rw [hz]
    exact h'

theorem getEdgesList_ok_shape (m : List (String × Val)) (ys : List Val)
    (h : getEdgesList m = .ok ys) :
    ys = [] ∨ mGet m "edges" = some (.vlist ys) := by
  unfold getEdgesList at h
  rcases he : mGet m "edges" with _ | v
  · simp only [he] at h
    injection h with h'
    exact Or.inl h'.symm
  · simp only [he] at h
    by_cases ht : pyTruthy v = true
    · rw [if_pos ht] at h
      cases v with
      | vlist zs =>
        exact Or.inr (by rw [Except.ok.inj h])
      | vnull => exact Except.noConfusion h
      | vbool b => exact Except.noConfusion h
      | vint n => exact Except.noConfusion h
      | vstr s => exact Except.noConfusion h
      | vmap mm => exact Except.noConfusion h
    · rw [if_neg ht] at h
      injection h with h'
      exact Or.inl h'.symm

theorem getPolicyMap_err (m : List (String × Val)) (f : PFail)
    (h : getPolicyMap m = .error f) :
    f = .pyException "AttributeError: no attribute get" := by
  unfold getPolicyMap at h
  rcases he : mGet m "policy" with _ | v
  · simp only [he] at h
    exact Except.noConfusion h
  · simp only [he] at h
    by_cases ht : pyTruthy v = true
    · rw [if_pos ht] at h
      cases v with
      | vmap pm => exact Except.noConfusion h
      | vnull => injection h with h'; exact h'.symm
      | vbool b => injection h with h'; exact h'.symm
      | vint n => injection h with h'; exact h'.symm
      | vstr s => injection h with h'; exact h'.symm
      | vlist l => injection h with h'; exact h'.symm
    · rw [if_neg ht] at h
      exact Except.noConfusion h

theorem parse_yaml_vmap_classify (m : List (String × Val)) :
    (∀ msg, parse_yaml (.ok (.vmap m)) = .error (.parseError msg) →
      parseErrorCond (.ok (.vmap m)) = true) ∧
    (∀ d, parse_yaml (.ok (.vmap m)) = .ok d →
      parseErrorCond (.ok (.vmap m)) = false) := by
  rw [show parse_yaml (.ok (.vmap m)) = (do
    let version ← pyIntE ((mGet m "version").getD (.vint 1))
    let flow_id := pyStr ((mGet m "id").getD (.vstr ""))
    let tenant := pyStr ((mGet m "tenant").getD (.vstr ""))
    let raw_tasks ← requireList m "tasks"
    let tasks ← parseTasks raw_tasks
    let raw_edges ← getEdgesList m
    let edges ← parseEdges raw_edges
    let pm ← getPolicyMap m
    .ok { version := version, id := flow_id, tenant := tenant
          tasks := tasks, edges := edges
          policy :=
            { risk_level := pyStr ((mGet pm "risk_level").getD (.vstr "low"))
              requires_approval := pyTruthy ((mGet pm "requires_approval").getD (.vbool false))
              retention := pyOpt (mGet pm "retention")
              extra := pm.filter (fun p =>
                ¬ (p.1 = "risk_level" ∨ p.1 = "requires_approval" ∨ p.1 = "retention")) } })
    from rfl]
  rcases h1 : pyIntE ((mGet m "version").getD (.vint 1)) with f | version
  · rw [ebind_err]
    constructor
    · intro msg h
      injection h with h'
      rw [pyIntE_err _ _ h1] at h'
      exact PFail.noConfusion h'
    · intro d h
      exact Except.noConfusion h
  · rw [ebind_ok]
    rcases h2 : requireList m "tasks" with f | raw_tasks
    · rw [ebind_err]
      constructor
      · intro msg h
        have hc := requireList_err_tasks m f h2
        simp [parseErrorCond, hc]
      · intro d h
        exact Except.noConfusion h
    · rw [ebind_ok]
      have hts := requireList_ok m "tasks" raw_tasks h2
      rcases h3 : parseTasks raw_tasks with f | tasks
      · rw [ebind_err]
        constructor
        · intro msg h
          injection h with h'
          subst h'
          have hany := parseTasks_err_parseError raw_tasks msg h3
          have hc : condEntryBad (.ok (.vmap m)) = true := by
            unfold condEntryBad
            simp [hts, hany]
          simp [parseErrorCond, hc]
        · intro d h
          exact Except.noConfusion h
      · rw [ebind_ok]
        have hanyT := parseTasks_ok_allmaps raw_tasks tasks h3
        rcases h4 : getEdgesList m with f | raw_edges
        · rw [ebind_err]
          constructor
          · intro msg h
            have hc := getEdgesList_err_cond m f h4
            simp [parseErrorCond, hc]
          · intro d h
            exact Except.noConfusion h
        · rw [ebind_ok]
          rcases h5 : parseEdges raw_edges with f | edges
          · rw [ebind_err]
            constructor
            · intro msg h
              injection h with h'
              subst h'
              have hany := parseEdges_err_parseError raw_edges msg h5
              rcases getEdgesList_ok_shape m raw_edges h4 with hnil | hvl
              · rw [hnil] at hany
                simp at hany
              · have hc : condEntryBad (.ok (.vmap m)) = true := by
                  unfold condEntryBad
                  simp [hvl, hany]
                simp [parseErrorCond, hc]
            · intro d h
              exact Except.noConfusion h
          · rw [ebind_ok]
            have hanyE := parseEdges_ok_allmaps raw_edges edges h5
            rcases h6 : getPolicyMap m with f | pm
            · rw [ebind_err]
              constructor
              · intro msg h
                injection h with h'
                rw [getPolicyMap_err m f h6] at h'
                exact PFail.noConfusion h'
              · intro d h
                exact Except.noConfusion h
            · rw [ebind_ok]
              constructor
              · intro msg h
                exact Except.noConfusion h
              · intro d h
                have hceb : condEdgesBad (.ok (.vmap m)) = false :=
                  getEdgesList_ok_cond m raw_edges h4
                have hcent : condEntryBad (.ok (.vmap m)) = false := by
                  unfold condEntryBad
                  rcases he : mGet m "edges" with _ | v
                  · simp [hts, hanyT, he]
                  · cases v with
                    | vlist zs =>
                      have hz := getEdgesList_ok_vlist m raw_edges zs h4 he
                      simp [hts, hanyT, he, hz, hanyE]
                    | vnull => simp [hts, hanyT, he]
                    | vbool b => simp [hts, hanyT, he]
                    | vint n => simp [hts, hanyT, he]
                    | vstr s => simp [hts, hanyT, he]
                    | vmap mm => simp [hts, hanyT, he]
                have hctb : condTasksBad (.ok (.vmap m)) = false := by
                  unfold condTasksBad
                  simp [hts, isVList]
                simp [parseErrorCond, condYamlErr, condRootNotMap, isVMap,
                  hctb, hceb, hcent]

/-- **C6, counterexample.**  A decoded document whose `version` field is
a non-numeric string satisfies none of the claimed `ParseError`
conditions, yet `parse` neither returns a `FlowDocument` nor raises
`ParseError`: `int(raw.get("version", 1))` raises an uncaught built-in
`ValueError` that escapes `parse`. -/
theorem parse_uncaught_exception :
    parse_yaml exSrcBadVersion = .error (.pyException "int() of non-integer value") ∧
    parseErrorCond exSrcBadVersion = false ∧
    (∀ d, parse_yaml exSrcBadVersion ≠ .ok d) ∧
    (∀ msg, parse_yaml exSrcBadVersion ≠ .error (.parseError msg)) := by
  refine ⟨rfl, rfl, ?_, ?_⟩
  · intro d h
    rw [show parse_yaml exSrcBadVersion =
      .error (.pyException "int() of non-integer value") from rfl] at h
    exact Except.noConfusion h
  · intro msg h
    rw [show parse_yaml exSrcBadVersion =
      .error (.pyException "int() of non-integer value") from rfl] at h
    injection h with h'
    exact PFail.noConfusion h'

/-- **C6, amended.**  `parse` raises `ParseError` only when one of the
claimed conditions holds (with the `edges` condition refined as the code
implements it: `edges` present, truthy and not a sequence — a falsy
`edges` value is treated as absent), and when it returns a
`FlowDocument` none of those conditions holds; but the converse fails:
built-in exceptions (`ValueError` from `int(version)`, `TypeError` from
`dict(...)`, `AttributeError` from `policy.get` on a truthy non-mapping)
can escape `parse` uncaught, so `ParseError` is not the only failure
mode. -/
theorem parse_yaml_parseError_sound (src : Except String Val) :
    (∀ msg, parse_yaml src = .error (.parseError msg) →
      parseErrorCond src = true) ∧
    (∀ d, parse_yaml src = .ok d → parseErrorCond src = false) := by
  cases src with
  | error e =>
    constructor
    · intro msg h
      simp [parseErrorCond, condYamlErr]
    · intro d h
      exact Except.noConfusion h
  | ok raw =>
    cases raw with
    | vmap m => exact parse_yaml_vmap_classify m
    | vnull =>
      exact ⟨fun msg h => by simp [parseErrorCond, condRootNotMap, isVMap],
        fun d h => Except.noConfusion h⟩
    | vbool b =>
      exact ⟨fun msg h => by simp [parseErrorCond, condRootNotMap, isVMap],
        fun d h => Except.noConfusion h⟩
    | vint n =>
      exact ⟨fun msg h => by simp [parseErrorCond, condRootNotMap, isVMap],
        fun d h => Except.noConfusion h⟩
    | vstr s =>
      exact ⟨fun msg h => by simp [parseErrorCond, condRootNotMap, isVMap],
        fun d h => Except.noConfusion h⟩
    | vlist l =>
      exact ⟨fun msg h => by simp [parseErrorCond, condRootNotMap, isVMap],
        fun d h => Except.noConfusion h⟩

theorem parse_yaml_parseError_sound_witness :
    parse_yaml exSrcListRoot =
      .error (.parseError "top-level document must be a mapping") ∧
    parseErrorCond exSrcListRoot = true :=
  ⟨rfl, (parse_yaml_parseError_sound exSrcListRoot).1
    "top-level document must be a mapping" rfl⟩

/-! ### Claim C5: the first-violation priority order -/

theorem intField_eq (resources : List (String × Val)) (key : String)
    (dflt : Int) (task : String) :
    intField resources key dflt task =
      if ((mGet resources key).map pyInt) = some none
      then .error (.intFieldBad task key)
      else .ok (match mGet resources key with
                | none => dflt
                | some v => (pyInt v).getD 0) := by
  unfold intField
  rcases h : mGet resources key with _ | v
  · simp [h]
  · rcases hv : pyInt v with _ | n <;> simp [h, hv]

theorem buildTasks_tag :
    ∀ (ts : List TaskNode) (seen : List String) (acc : List (String × IRTask)),
      (match buildTasks ts seen acc with
        | .error e => some (tagOf e)
        | .ok _ => none) = fvTasks ts seen := by
  intro ts
  induction ts with
  | nil => intro seen acc; rfl
  | cons t ts ih =>
    intro seen acc
    by_cases h1 : pyStrip t.name = ""
    · simp [buildTasks, fvTasks, h1, tagOf]
    · by_cases h2 : t.name ∈ seen
      · simp [buildTasks, fvTasks, h1, h2, tagOf]
      · by_cases h3 : pyStrip t.agent = ""
        · simp [buildTasks, fvTasks, h1, h2, h3, tagOf]
        · by_cases hp : ((mGet t.resources "priority").map pyInt) = some none
          · simp [buildTasks, fvTasks, h1, h2, h3, hp, intField_eq, tagOf]
          · by_cases htm : ((mGet t.resources "timeout_ms").map pyInt) = some none
            · simp [buildTasks, fvTasks, h1, h2, h3, hp, htm, intField_eq, tagOf]
            · by_cases h4 : ((match mGet t.resources "timeout_ms" with
                  | none => DEFAULT_TIMEOUT_MS
                  | some v => (pyInt v).getD 0) : Int) ≤ 0
              · simp [buildTasks, fvTasks, h1, h2, h3, hp, htm, h4,
                  intField_eq, tagOf]
              · simp only [buildTasks, fvTasks, h1, h2, h3, hp, htm, h4,
                  intField_eq, if_false, ite_false]
                exact ih (seen ++ [t.name]) _

theorem buildEdges_tag (ir_tasks : List (String × IRTask)) :
    ∀ (es : List Edge) (acc : List IREdge),
      (match buildEdges ir_tasks es acc with
        | .error e => some (tagOf e)
        | .ok _ => none) = fvEdges (ir_tasks.map (·.1)) es := by
  intro es
  induction es with
  | nil => intro acc; rfl
  | cons e es ih =>
    intro acc
    by_cases h1 : e.source ∈ ir_tasks.map (·.1)
    · by_cases h2 : e.target ∈ ir_tasks.map (·.1)
      · simp only [buildEdges, fvEdges, h1, h2, not_true, if_false]
        exact ih _
      · simp [buildEdges, fvEdges, h1, h2, tagOf]
    · simp [buildEdges, fvEdges, h1, tagOf]

theorem fvTasks_ne_cycle : ∀ (ts : List TaskNode) (prior : List String),
    fvTasks ts prior ≠ some .cycle := by
  intro ts
  induction ts with
  | nil => intro prior h; exact Option.noConfusion h
  | cons t ts ih =>
    intro prior h
    by_cases h1 : pyStrip t.name = ""
    · simp [fvTasks, h1] at h
    · by_cases h2 : t.name ∈ prior
      · simp [fvTasks, h1, h2] at h
      · by_cases h3 : pyStrip t.agent = ""
        · simp [fvTasks, h1, h2, h3] at h
        · by_cases hp : ((mGet t.resources "priority").map pyInt) = some none
          · simp [fvTasks, h1, h2, h3, hp] at h
          · by_cases htm : ((mGet t.resources "timeout_ms").map pyInt) = some none
            · simp [fvTasks, h1, h2, h3, hp, htm] at h
            · by_cases h4 : ((match mGet t.resources "timeout_ms" with
                  | none => DEFAULT_TIMEOUT_MS
                  | some v => (pyInt v).getD 0) : Int) ≤ 0
              · simp [fvTasks, h1, h2, h3, hp, htm, h4] at h
              · rw [show fvTasks (t :: ts) prior = fvTasks ts (prior ++ [t.name])
                  from by simp [fvTasks, h1, h2, h3, hp, htm, h4]] at h
                exact ih _ h

theorem fvEdges_ne_cycle (names : List String) :
    ∀ (es : List Edge), fvEdges names es ≠ some .cycle := by
  intro es
  induction es with
  | nil => intro h; exact Option.noConfusion h
  | cons e es ih =>
    intro h
    by_cases h1 : e.source ∈ names
    · by_cases h2 : e.target ∈ names
      · rw [show fvEdges names (e :: es) = fvEdges names es
          from by simp [fvEdges, h1, h2]] at h
        exact ih h
      · simp [fvEdges, h1, h2] at h
    · simp [fvEdges, h1] at h

theorem adjList_mapped (node : String) :
    ∀ (es : List Edge),
      ((es.map (fun e => ({ source := e.source, target := e.target, condition := e.condition } : IREdge))).filter (fun e2 => e2.source == node)).map (fun e2 => e2.target) =
      ((es.map (fun e => (e.source, e.target))).filter (fun p => p.1 == node)).map (fun p => p.2) := by
  intro es
  induction es with
  | nil => rfl
  | cons e es ih =>
    by_cases he : e.source == node <;>
      simp [List.filter_cons, he, ih]

theorem graphAdj_mapped (edges : List Edge) (node : String) :
    graphAdj (edges.map (fun e =>
      { source := e.source, target := e.target, condition := e.condition })) node =
    ((((edges.map (fun e => (e.source, e.target))).filter
        (fun p => p.1 == node)).map (·.2)).foldl dedupAppend []) := by
  unfold graphAdj
  rw [adjList_mapped node edges]

/-- **C5, counterexample.**  First task `a` has `timeout_ms: 0`, second
task has an empty name.  The claim's priority list finishes all of rule
group (4) — name, duplicate, agent — across tasks before any other
per-task consideration, so it predicts the empty-name error; the code
validates each task completely (including the coercion and positivity
checks the claim omits from the order) before moving to the next task,
and reports the non-positive timeout of task `a`. -/
theorem priority_list_misses_timeout_rule :
    validate_and_normalize exDocTimeoutName = .error (.timeoutNotPositive "a") ∧
    claimedFirstViolation exDocTimeoutName = some .emptyTaskName ∧
    tagOf (.timeoutNotPositive "a") ≠ RuleTag.emptyTaskName :=
  ⟨rfl, rfl, by decide⟩

/-- **C5, amended.**  Validation is fail-fast and reports exactly the
first violated rule in this priority order: empty id, empty tenant,
empty task list, then per task in declaration order the rules empty
name, duplicate name, empty agent, non-coercible priority, non-coercible
timeout, non-positive timeout (each task is checked completely before
the next task is looked at), then per edge in declaration order unknown
source then unknown target, then invalid risk level, then cycle
detection last; the fuel bound of the embedded DFS is never the reported
error. -/
theorem validator_first_violation (doc : FlowDocument) :
    validate_and_normalize doc ≠ .error .fuelExhausted ∧
    errTag (validate_and_normalize doc) = firstViolation doc := by
  by_cases hid : pyStrip doc.id = ""
  · have hv : validate_and_normalize doc = .error .emptyId := by
      unfold validate_and_normalize
      rw [if_pos hid]
    have hf : firstViolation doc = some .emptyId := by
      unfold firstViolation
      rw [if_pos hid]
    rw [hv, hf]
    exact ⟨fun h => VErr.noConfusion (Except.error.inj h), rfl⟩
  · by_cases hten : pyStrip doc.tenant = ""
    · have hv : validate_and_normalize doc = .error .emptyTenant := by
        unfold validate_and_normalize
        rw [if_neg hid, if_pos hten]
      have hf : firstViolation doc = some .emptyTenant := by
        unfold firstViolation
        rw [if_neg hid, if_pos hten]
      rw [hv, hf]
      exact ⟨fun h => VErr.noConfusion (Except.error.inj h), rfl⟩
    · by_cases hemp : doc.tasks.isEmpty = true
      · have hv : validate_and_normalize doc = .error .noTasks := by
          unfold validate_and_normalize
          rw [if_neg hid, if_neg hten, if_pos hemp]
        have hf : firstViolation doc = some .noTasks := by
          unfold firstViolation
          rw [if_neg hid, if_neg hten, if_pos hemp]
        rw [hv, hf]
        exact ⟨fun h => VErr.noConfusion (Except.error.inj h), rfl⟩
      · have htag := buildTasks_tag doc.tasks [] []
        rcases hbt : buildTasks doc.tasks [] [] with e | ir_tasks
        · rw [hbt] at htag
          have hv : validate_and_normalize doc = .error e := by
            unfold validate_and_normalize
            rw [if_neg hid, if_neg hten, if_neg hemp]
            simp only [hbt]
          have hf : firstViolation doc = some (tagOf e) := by
            unfold firstViolation
            rw [if_neg hid, if_neg hten, if_neg hemp]
            simp only [← htag]
          rw [hv, hf]
          refine ⟨fun h => ?_, rfl⟩
          have he := Except.error.inj h
          rw [he] at htag
          exact fvTasks_ne_cycle doc.tasks [] htag.symm
        · rw [hbt] at htag
          obtain ⟨hkeys0, hnd, _⟩ :=
            buildTasks_ok_spec doc.tasks [] [] ir_tasks hbt rfl List.nodup_nil
          have hkeys : ir_tasks.map (·.1) = doc.tasks.map (·.name) := by
            simpa using hkeys0
          have htag2 := buildEdges_tag ir_tasks doc.edges []
          rw [hkeys] at htag2
          rcases hbe : buildEdges ir_tasks doc.edges [] with e | ir_edges
          · rw [hbe] at htag2
            have hv : validate_and_normalize doc = .error e := by
              unfold validate_and_normalize
              rw [if_neg hid, if_neg hten, if_neg hemp]
              simp only [hbt, hbe]
            have hf : firstViolation doc = some (tagOf e) := by
              unfold firstViolation
              rw [if_neg hid, if_neg hten, if_neg hemp]
              simp only [← htag, ← htag2]
            rw [hv, hf]
            refine ⟨fun h => ?_, rfl⟩
            have he := Except.error.inj h
            rw [he] at htag2
            exact fvEdges_ne_cycle (doc.tasks.map (·.name)) doc.edges htag2.symm
          · rw [hbe] at htag2
            obtain ⟨hedges0, hend⟩ :=
              buildEdges_ok_spec ir_tasks doc.edges [] ir_edges hbe
            have hedges : ir_edges = doc.edges.map (fun e =>
                { source := e.source, target := e.target
                  condition := e.condition }) := by
              simpa using hedges0
            have hend' : ∀ e ∈ ir_edges,
                e.source ∈ ir_tasks.map (·.1) ∧ e.target ∈ ir_tasks.map (·.1) := by
              intro e he
              rcases hend e he with hmem | hp
              · exact absurd hmem (List.not_mem_nil e)
              · exact hp
            by_cases hrisk : doc.policy.risk_level ∈ VALID_RISK_LEVELS
            · have hlen : ir_tasks.length = doc.tasks.length := by
                have := congrArg List.length hkeys
                simpa using this
              have hadj : graphAdj ir_edges = fun node =>
                  ((((doc.edges.map (fun e => (e.source, e.target))).filter
                    (fun p => p.1 == node)).map (·.2)).foldl dedupAppend []) := by
                funext node
                rw [hedges]
                exact graphAdj_mapped doc.edges node
              have hsame : assert_dag ir_tasks ir_edges =
                  assertDagLoop (fun node =>
                    ((((doc.edges.map (fun e => (e.source, e.target))).filter
                      (fun p => p.1 == node)).map (·.2)).foldl dedupAppend []))
                    ((doc.tasks.map (·.name)).length + 1) []
                    (doc.tasks.map (·.name)) := by
                unfold assert_dag
                rw [hadj, hkeys, hlen]
                simp [List.length_map]
              have hnn : assert_dag ir_tasks ir_edges ≠ none :=
                assert_dag_ne_none ir_tasks ir_edges
                  (fun e he => (hend' e he).1) (fun e he => (hend' e he).2)
              rcases hdag : assert_dag ir_tasks ir_edges with _ | res
              · exact absurd hdag hnn
              · cases res with
                | error v =>
                  have hv : validate_and_normalize doc =
                      .error (.cycleDetected v) := by
                    unfold validate_and_normalize
                    rw [if_neg hid, if_neg hten, if_neg hemp]
                    simp only [hbt, hbe, if_pos hrisk, hdag]
                  have hcyc : specCycle (doc.tasks.map (·.name))
                      (doc.edges.map (fun e => (e.source, e.target))) = true := by
                    unfold specCycle
                    rw [← hsame, hdag]
                  have hf : firstViolation doc = some .cycle := by
                    unfold firstViolation
                    rw [if_neg hid, if_neg hten, if_neg hemp]
                    simp only [← htag, ← htag2]
                    rw [if_neg (not_not_intro hrisk), if_pos hcyc]
                  rw [hv, hf]
                  exact ⟨fun h => VErr.noConfusion (Except.error.inj h), rfl⟩
                | ok L =>
                  have hv : validate_and_normalize doc =
                      .ok { id := doc.id, tenant := doc.tenant
                            tasks := ir_tasks, edges := ir_edges
                            policy :=
                              { risk_level := doc.policy.risk_level
                                requires_approval := doc.policy.requires_approval
                                retention := doc.policy.retention } } := by
                    unfold validate_and_normalize
                    rw [if_neg hid, if_neg hten, if_neg hemp]
                    simp only [hbt, hbe, if_pos hrisk, hdag]
                  have hncyc : specCycle (doc.tasks.map (·.name))
                      (doc.edges.map (fun e => (e.source, e.target))) = false := by
                    unfold specCycle
                    rw [← hsame, hdag]
                  have hf : firstViolation doc = none := by
                    unfold firstViolation
                    rw [if_neg hid, if_neg hten, if_neg hemp]
                    simp only [← htag, ← htag2]
                    rw [if_neg (not_not_intro hrisk),
                      if_neg (by rw [hncyc]; exact Bool.false_ne_true)]
                  rw [hv, hf]
                  exact ⟨fun h => Except.noConfusion h, rfl⟩
            · have hv : validate_and_normalize doc =
                  .error (.invalidRisk doc.policy.risk_level) := by
                unfold validate_and_normalize
                rw [if_neg hid, if_neg hten, if_neg hemp]
                simp only [hbt, hbe]
                rw [if_neg hrisk]
              have hf : firstViolation doc =
                  some (.invalidRisk doc.policy.risk_level) := by
                unfold firstViolation
                rw [if_neg hid, if_neg hten, if_neg hemp]
                simp only [← htag, ← htag2]
                rw [if_pos hrisk]
              rw [hv, hf]
              exact ⟨fun h => VErr.noConfusion (Except.error.inj h), rfl⟩
